import Mathlib

/-!
Shallow embedding of the Prime-Factorization Trajectory Engine of
`src/misc/prime-box/misc/plottingprime-obj.py`, together with proofs of the
spec's claims about it.  Python integers become `Nat` (no subtraction or
overflow occurs in the source), the interpolation arithmetic (exact in the
claims under scrutiny) is carried out in `ℚ`, Python lists become `List`,
and the two places where the source can raise (`IndexError` on the sieve's
initial writes, `KeyError` on dictionary lookup) are modelled with
`Except String`.
-/

namespace PrimeBox

/-! ## Prime sieve (`get_primes`, source lines 8-20)

The Python boolean list `is_prime` is modelled as a `List Bool`; `List.set`
is in-bounds everywhere the loop writes (indices `i*i, i*i+i, … ≤ n` into a
list of length `n+1`).  The two initial statements `is_prime[0] = False`
and `is_prime[1] = False` raise `IndexError` in Python when the list is too
short (limit ≤ 0); the `Int`-typed wrapper `get_primes` reproduces that. -/

/-- One marking pass: `for multiple in range(i*i, n+1, i): is_prime[multiple] = False`.
`List.range' s len step` enumerates exactly Python's `range(s, s+len*step, step)`;
the length formula gives the count of multiples of `i` in `[i*i, n]`. -/
def markMultiples (n i : Nat) (arr : List Bool) : List Bool :=
  (List.range' (i * i) ((n + 1 - i * i + (i - 1)) / i) i).foldl
    (fun a m => a.set m false) arr

/-- Body of the sieve loop for one value of `i`:
`if is_prime[i]: primes.append(i); <mark multiples>`. -/
def sieveStep (n : Nat) (st : List Nat × List Bool) (i : Nat) :
    List Nat × List Bool :=
  if st.2.getD i false then (st.1 ++ [i], markMultiples n i st.2) else st

/-- `get_primes` after the two initial writes succeeded (limit ≥ 1):
the loop `for i in range(2, n+1)` over the sieve state. -/
def get_primesN (n : Nat) : List Nat :=
  let arr0 := ((List.replicate (n + 1) true).set 0 false).set 1 false
  ((List.range' 2 (n - 1)).foldl (sieveStep n) ([], arr0)).1

/-- `get_primes(n)` with Python `int` argument.  `[True] * (n+1)` has length
`max (n+1) 0`, so `is_prime[0] = False` raises `IndexError` for n ≤ -1 and
`is_prime[1] = False` raises for n = 0. -/
def get_primes (limit : Int) : Except String (List Nat) :=
  if limit + 1 < 1 then Except.error "IndexError"
  else if limit + 1 < 2 then Except.error "IndexError"
  else Except.ok (get_primesN limit.toNat)

/-! ## Factorizer (`get_prime_factors`, source lines 22-35) -/

/-- The inner loop `while d % p == 0: factors.append(p); d //= p`, returning
the appended factors and the final `d`.  The first argument is structural
fuel (the recursion depth is at most `d`, see `divideOut`); the guard
`0 < d` inside is a termination safeguard that never differs from Python on
reachable states, because the caller only enters the loop when `p * p ≤ d`. -/
def divideOutF : Nat → Nat → Nat → List Nat × Nat
  | 0, _, d => ([], d)
  | fuel + 1, p, d =>
    if 2 ≤ p ∧ 0 < d ∧ d % p = 0 then
      let r := divideOutF fuel p (d / p)
      (p :: r.1, r.2)
    else ([], d)

/-- The division loop with fuel `d`, which always suffices. -/
def divideOut (p d : Nat) : List Nat × Nat := divideOutF d p d

/-- The outer loop over `primes_list` with its early break `if p * p > d`. -/
def trialDivide : List Nat → Nat → List Nat × Nat
  | [], d => ([], d)
  | p :: ps, d =>
    if d < p * p then ([], d)
    else
      let r := divideOut p d
      let s := trialDivide ps r.2
      (r.1 ++ s.1, s.2)

/-- Stable insertion into a descending list (helper for `sortDesc`). -/
def insertDesc (a : Nat) : List Nat → List Nat
  | [] => [a]
  | b :: bs => if b ≤ a then a :: b :: bs else b :: insertDesc a bs

/-- `factors.sort(reverse=True)`: a stable descending sort (on `Nat` keys any
correct descending sort produces the same list as Python's). -/
def sortDesc : List Nat → List Nat
  | [] => []
  | a :: as => insertDesc a (sortDesc as)

/-- `get_prime_factors(n, primes_list)`: trial division, residual append,
descending sort. -/
def get_prime_factors (n : Nat) (primes_list : List Nat) : List Nat :=
  let r := trialDivide primes_list n
  let factors := if 1 < r.2 then r.1 ++ [r.2] else r.1
  sortDesc factors

namespace PathGen

/-! ## Rank lookup (`prime_to_index`, source line 46)

`prime_to_index = {prime: i + 1 for i, prime in enumerate(primes_list)}`;
the sieve output has no duplicates, so the dictionary maps each prime to one
more than its (first) position in the list. -/

/-- Position of the first occurrence of `q` in a list. -/
def idxOf? (q : Nat) : List Nat → Option Nat
  | [] => none
  | p :: ps => if p = q then some 0 else (idxOf? q ps).map (· + 1)

/-- The dictionary `prime_to_index` as a partial map. -/
def prime_to_index (primes_list : List Nat) (q : Nat) : Option Nat :=
  (idxOf? q primes_list).map (· + 1)

/-- `prime_to_index[q]`: a Python dict subscript, `KeyError` when absent. -/
def lookupRank (primes_list : List Nat) (q : Nat) : Except String Nat :=
  match prime_to_index primes_list q with
  | some r => Except.ok r
  | none => Except.error ("KeyError: " ++ toString q)

/-- `prime_to_index.get(q, dflt)`: dict lookup with default. -/
def rankD (primes_list : List Nat) (q dflt : Nat) : Nat :=
  (prime_to_index primes_list q).getD dflt

/-! ## Coordinate mapper and classifier (source lines 67-95) -/

/-- The fold-back loop `for i in range(3, len(factors))` of the
more-than-three-factors branch: `i` is the 0-based position of the factor,
and `prime_to_index.get(factors[i], 1)` is added onto axis `i mod 3`. -/
def foldAxes (primes_list : List Nat) : Nat → List Nat → Nat × Nat × Nat → Nat × Nat × Nat
  | _, [], acc => acc
  | i, f :: fs, (x, y, z) =>
    let p_idx := rankD primes_list f 1
    let x := if i % 3 = 0 then x + p_idx else x
    let y := if i % 3 = 1 then y + p_idx else y
    let z := if i % 3 = 2 then z + p_idx else z
    foldAxes primes_list (i + 1) fs (x, y, z)

/-- The branch on `len(factors)` (source lines 68-95) producing `coord` and
`point_type` for one integer.  Dict subscripts can raise `KeyError`; the
final branch also covers `factors == []`, where Python's `factors[0]`
raises `IndexError`.  In the two- and three-factor branches both sides of
the equality test build the same tuple from the same subscripts, so the
lookups are performed once here. -/
def coordAndType (primes_list : List Nat) (factors : List Nat) :
    Except String ((Nat × Nat × Nat) × String) :=
  match factors with
  | [a] => do
    let r ← lookupRank primes_list a
    pure ((r, 0, 0), "x_axis")
  | [a, b] => do
    let ra ← lookupRank primes_list a
    let rb ← lookupRank primes_list b
    if a = b then pure ((ra, rb, 0), "diagonal")
    else pure ((ra, rb, 0), "other")
  | [a, b, c] => do
    let ra ← lookupRank primes_list a
    let rb ← lookupRank primes_list b
    let rc ← lookupRank primes_list c
    if a = b ∧ b = c then pure ((ra, rb, rc), "z_axis")
    else pure ((ra, rb, rc), "other")
  | [] => Except.error "IndexError"
  | a :: b :: c :: rest =>
    let x := rankD primes_list a 0
    let y := rankD primes_list b 0
    let z := rankD primes_list c 0
    pure (foldAxes primes_list 3 rest (x, y, z), "other")

/-! ## Path builder (`generate_full_path`, source lines 37-130) -/

/-- A point of the interpolated path.  The source computes these in floating
point; every coordinate the claims inspect (the origin and the integer
boundary points, where `t = 1`) is exact, so the arithmetic is carried out
in `ℚ`. -/
abbrev Point := ℚ × ℚ × ℚ

/-- `(1-t)`-`t` linear interpolation per axis (source lines 103-107). -/
def lerp (a b : Nat × Nat × Nat) (t : ℚ) : Point :=
  ((a.1 : ℚ) * (1 - t) + (b.1 : ℚ) * t,
   (a.2.1 : ℚ) * (1 - t) + (b.2.1 : ℚ) * t,
   (a.2.2 : ℚ) * (1 - t) + (b.2.2 : ℚ) * t)

/-- The tag cascade for an intermediate point (source lines 115-122),
reading the previous entry `point_types[-1]`. -/
def mergeTag (ptype prev : String) : String :=
  if ptype = "x_axis" ∨ prev = "x_axis" then "x_axis"
  else if ptype = "diagonal" ∨ prev = "diagonal" then "diagonal"
  else if ptype = "z_axis" ∨ prev = "z_axis" then "z_axis"
  else "other"

/-- Body of the interpolation loop `for i in range(1, num_steps + 1)`
(source lines 101-122), appending one point and one tag to the global
lists.  `point_types` is never empty (it starts as `["origin"]`), so
`getLastD` is Python's `point_types[-1]`. -/
def interpStep (last_point coord : Nat × Nat × Nat) (point_type : String)
    (num_steps : Nat) (st : List Point × List String) (i : Nat) :
    List Point × List String :=
  let t : ℚ := (i : ℚ) / (num_steps : ℚ)
  let pt := lerp last_point coord t
  let tag :=
    if i = num_steps then point_type
    else mergeTag point_type (st.2.getLastD "")
  (st.1 ++ [pt], st.2 ++ [tag])

/-- The loop state of `generate_full_path`: the previous integer's
coordinate (the only entry of the `coordinates` dict the loop reads), the
growing path, the `number_end_indices` dict as an association list in
insertion order, and the tag list. -/
structure PathState where
  lastCoord : Nat × Nat × Nat
  full_path : List Point
  number_end_indices : List (Nat × Nat)
  point_types : List String

/-- One iteration of `for n in range(2, limit + 1)` (source lines 59-124). -/
def processNumber (primes_list : List Nat) (st : PathState) (n : Nat) :
    Except String PathState := do
  let factors := get_prime_factors n primes_list
  let ct ← coordAndType primes_list factors
  let num_steps := 10
  let r := (List.range' 1 num_steps).foldl
    (interpStep st.lastCoord ct.1 ct.2 num_steps) (st.full_path, st.point_types)
  pure ⟨ct.1, r.1, st.number_end_indices ++ [(n, r.1.length - 1)], r.2⟩

/-- The full result triple of `generate_full_path`. -/
abbrev PathResult := List Point × List (Nat × Nat) × List String

/-- `generate_full_path(limit)` for limit ≥ 1 (past the sieve's initial
writes): initial state from source lines 49-57, then the loop. -/
def generate_full_pathN (limit : Nat) : Except String PathResult := do
  let primes_list := get_primesN limit
  let st0 : PathState := ⟨(0, 0, 0), [(0, 0, 0)], [(1, 0)], ["origin"]⟩
  let stF ← (List.range' 2 (limit - 1)).foldlM (processNumber primes_list) st0
  pure (stF.full_path, stF.number_end_indices, stF.point_types)

/-- `generate_full_path(limit)` with Python `int` argument: the call
`get_primes(limit)` on line 45 raises `IndexError` for limit ≤ 0. -/
def generate_full_path (limit : Int) : Except String PathResult :=
  match get_primes limit with
  | Except.error e => Except.error e
  | Except.ok _ => generate_full_pathN limit.toNat

end PathGen

namespace Export

/-! ## Exporter grouping (`export_to_obj`, source lines 182-217)

Only the geometry logic is modelled: the partition of vertex indices into
the five fixed tag groups and the per-group consecutive-index edges.  File
headers and material colors carry no algorithmic content. -/

/-- The loop filling `type_to_indices[point_types[i]].append(i + 1)`
(source line 202): the 1-based vertex indices whose tag equals `t`, in path
order. -/
def groupIndices (point_types : List String) (t : String) : List Nat :=
  ((point_types.enum.filter (fun p => p.2 = t)).map (fun p => p.1 + 1))

/-- The edge loop (source lines 215-217): an `l i j` record is written only
when `indices[i] + 1 == indices[i + 1]`. -/
def edgesOf : List Nat → List (Nat × Nat)
  | a :: b :: rest => (if a + 1 = b then [(a, b)] else []) ++ edgesOf (b :: rest)
  | _ => []

/-- The five dictionary keys of `type_to_indices` (source lines 183-189). -/
def tagKeys : List String := ["x_axis", "diagonal", "z_axis", "other", "origin"]

end Export

/-! ## Sieve correctness

The sieve loop is characterised: `get_primesN n` is the ascending list of
primes in `[2, n]`. -/

/-- The marked positions are exactly the multiples of `i` in `[i*i, n]`. -/
lemma mem_markRange {n i m : Nat} (hi : 2 ≤ i) :
    m ∈ List.range' (i * i) ((n + 1 - i * i + (i - 1)) / i) i ↔
      i ∣ m ∧ i * i ≤ m ∧ m ≤ n := by
  rw [List.mem_range']
  constructor
  · rintro ⟨k, hk, rfl⟩
    have hle : k + 1 ≤ (n + 1 - i * i + (i - 1)) / i := hk
    rw [Nat.le_div_iff_mul_le (by omega : 0 < i)] at hle
    have hexp : (k + 1) * i = i * k + i := by ring
    rw [hexp] at hle
    exact ⟨⟨i + k, by ring⟩, by omega, by omega⟩
  · rintro ⟨⟨c, rfl⟩, h1, h2⟩
    have hci : i ≤ c := Nat.le_of_mul_le_mul_left h1 (by omega)
    refine ⟨c - i, ?_, ?_⟩
    · have hgoal : c - i + 1 ≤ (n + 1 - i * i + (i - 1)) / i := by
        rw [Nat.le_div_iff_mul_le (by omega : 0 < i)]
        have hexp : (c - i + 1) * i = (c - i) * i + i := by ring
        have hsub : (c - i) * i = i * c - i * i := by
          rw [Nat.sub_mul, Nat.mul_comm c i]
        omega
      omega
    · have : i * (i + (c - i)) = i * i + i * (c - i) := by ring
      rw [show i + (c - i) = c from by omega] at this
      omega

/-- Index lookup through a fold of `List.set _ false` writes. -/
lemma getElem?_foldl_set (L : List Nat) :
    ∀ (arr : List Bool) (m : Nat),
      (L.foldl (fun a k => a.set k false) arr)[m]? =
        if m ∈ L then (if m < arr.length then some false else none)
        else arr[m]? := by
  induction L with
  | nil => simp
  | cons k L ih =>
    intro arr m
    rw [List.foldl_cons, ih]
    by_cases hm : m ∈ L
    · simp [hm, List.length_set]
    · by_cases hk : m = k
      · subst hk
        simp [hm, List.getElem?_set, List.length_set]
      · simp [hm, hk, List.getElem?_set, Ne.symm hk]

lemma length_foldl_set (L : List Nat) :
    ∀ (arr : List Bool), (L.foldl (fun a k => a.set k false) arr).length = arr.length := by
  induction L with
  | nil => simp
  | cons k L ih => intro arr; rw [List.foldl_cons, ih, List.length_set]

lemma getElem?_markMultiples {n i : Nat} (hi : 2 ≤ i) (arr : List Bool) (m : Nat) :
    (markMultiples n i arr)[m]? =
      if i ∣ m ∧ i * i ≤ m ∧ m ≤ n then (if m < arr.length then some false else none)
      else arr[m]? := by
  unfold markMultiples
  rw [getElem?_foldl_set]
  by_cases h : i ∣ m ∧ i * i ≤ m ∧ m ≤ n
  · rw [if_pos ((mem_markRange hi).mpr h), if_pos h]
  · rw [if_neg (fun hmem => h ((mem_markRange hi).mp hmem)), if_neg h]

/-- The sieve invariant before processing index `i`: a cell `m ≤ n` is still
`True` exactly when `m ≥ 2` and `m` is prime or has no prime factor below
`i`. -/
def sieveInv (n i : Nat) (arr : List Bool) : Prop :=
  arr.length = n + 1 ∧
  ∀ m, m ≤ n → (arr.getD m false = true ↔ 2 ≤ m ∧ (Nat.Prime m ∨ i ≤ m.minFac))

lemma sieveInv_init (n : Nat) :
    sieveInv n 2 (((List.replicate (n + 1) true).set 0 false).set 1 false) := by
  constructor
  · simp
  · intro m hm
    rw [List.getD_eq_getElem?_getD, List.getElem?_set, List.getElem?_set,
      List.getElem?_replicate]
    rcases m with _ | _ | m
    · simp
    · have : 0 < n := by omega
      simp [this]
    · have h2 : 2 ≤ m + 2 := by omega
      have hmf : 2 ≤ (m + 2).minFac := (Nat.minFac_prime (by omega)).two_le
      simp only [show (1 : Nat) ≠ m + 2 from by omega, show (0 : Nat) ≠ m + 2 from by omega,
        if_false, if_neg, List.length_replicate]
      simp [show m + 2 < n + 1 from by omega, h2, hmf]

lemma sieveInv_true_iff {n i : Nat} {arr : List Bool} (h : sieveInv n i arr)
    (h2 : 2 ≤ i) (hin : i ≤ n) : (arr.getD i false = true ↔ Nat.Prime i) := by
  rw [h.2 i hin]
  constructor
  · rintro ⟨hi2, hp | hle⟩
    · exact hp
    · have : i.minFac = i := le_antisymm (Nat.minFac_le (by omega)) hle
      exact Nat.prime_def_minFac.mpr ⟨hi2, this⟩
  · intro hp
    exact ⟨h2, Or.inl hp⟩

lemma sieveInv_mark {n i : Nat} {arr : List Bool} (h : sieveInv n i arr)
    (h2 : 2 ≤ i) (hp : Nat.Prime i) : sieveInv n (i + 1) (markMultiples n i arr) := by
  refine ⟨?_, ?_⟩
  · unfold markMultiples; rw [length_foldl_set]; exact h.1
  · intro m hm
    rw [List.getD_eq_getElem?_getD, getElem?_markMultiples h2]
    by_cases hmark : i ∣ m ∧ i * i ≤ m ∧ m ≤ n
    · rw [if_pos hmark, if_pos (by rw [h.1]; omega : m < arr.length)]
      simp only [Option.getD_some]
      constructor
      · intro hfalse; exact absurd hfalse (by simp)
      · rintro ⟨hm2, hcase⟩
        exfalso
        have hnp : ¬ Nat.Prime m := by
          intro hpm
          rcases (Nat.Prime.eq_one_or_self_of_dvd hpm i hmark.1) with h1 | h1
          · omega
          · subst h1; nlinarith [hmark.2.1]
        have hle : m.minFac ≤ i := Nat.minFac_le_of_dvd h2 hmark.1
        rcases hcase with hpm | hmf
        · exact hnp hpm
        · omega
    · rw [if_neg hmark, ← List.getD_eq_getElem?_getD, h.2 m hm]
      constructor
      · rintro ⟨hm2, hpm | hmf⟩
        · exact ⟨hm2, Or.inl hpm⟩
        · refine ⟨hm2, ?_⟩
          by_cases hpm : Nat.Prime m
          · exact Or.inl hpm
          · refine Or.inr ?_
            rcases Nat.lt_or_ge m.minFac (i + 1) with hlt | hge
            · have heq : m.minFac = i := by omega
              exfalso
              refine hmark ⟨heq ▸ Nat.minFac_dvd m, ?_, hm⟩
              have := Nat.minFac_sq_le_self (by omega : 0 < m) hpm
              rw [heq] at this
              nlinarith
            · exact hge
      · rintro ⟨hm2, hpm | hmf⟩
        · exact ⟨hm2, Or.inl hpm⟩
        · exact ⟨hm2, Or.inr (by omega)⟩

lemma sieveInv_skip {n i : Nat} {arr : List Bool} (h : sieveInv n i arr)
    (h2 : 2 ≤ i) (hnp : ¬ Nat.Prime i) : sieveInv n (i + 1) arr := by
  refine ⟨h.1, ?_⟩
  intro m hm
  rw [h.2 m hm]
  constructor
  · rintro ⟨hm2, hpm | hmf⟩
    · exact ⟨hm2, Or.inl hpm⟩
    · refine ⟨hm2, ?_⟩
      rcases Nat.lt_or_ge m.minFac (i + 1) with hlt | hge
      · have heq : m.minFac = i := by omega
        exact absurd (heq ▸ Nat.minFac_prime (by omega : m ≠ 1)) hnp
      · exact Or.inr hge
  · rintro ⟨hm2, hpm | hmf⟩
    · exact ⟨hm2, Or.inl hpm⟩
    · exact ⟨hm2, Or.inr (by omega)⟩

lemma sieve_fold (n : Nat) : ∀ (len start : Nat) (acc : List Nat) (arr : List Bool),
    2 ≤ start → start + len = n + 1 → sieveInv n start arr →
    ((List.range' start len).foldl (sieveStep n) (acc, arr)).1 =
      acc ++ (List.range' start len).filter (fun m => decide (Nat.Prime m)) := by
  intro len
  induction len with
  | zero => intro start acc arr _ _ _; simp
  | succ k ih =>
    intro start acc arr h2 hsum hinv
    rw [List.range'_succ, List.foldl_cons, List.filter_cons]
    have hstart_le : start ≤ n := by omega
    have hiff := sieveInv_true_iff hinv h2 hstart_le
    by_cases hp : Nat.Prime start
    · have htrue : arr.getD start false = true := hiff.mpr hp
      have hstep : sieveStep n (acc, arr) start = (acc ++ [start], markMultiples n start arr) := by
        unfold sieveStep; rw [htrue]; simp
      rw [hstep, ih (start + 1) (acc ++ [start]) (markMultiples n start arr) (by omega)
        (by omega) (sieveInv_mark hinv h2 hp)]
      simp [hp, List.append_assoc]
    · have hfalse : arr.getD start false = false := by
        rcases Bool.eq_false_or_eq_true (arr.getD start false) with h | h
        · exact absurd (hiff.mp h) hp
        · exact h
      have hstep : sieveStep n (acc, arr) start = (acc, arr) := by
        unfold sieveStep; rw [hfalse]; simp
      rw [hstep, ih (start + 1) acc arr (by omega) (by omega) (sieveInv_skip hinv h2 hp)]
      simp [hp]

/-- Sieve characterisation: `get_primes` produces exactly the ascending
primes in `[2, n]`. -/
theorem get_primesN_eq (n : Nat) :
    get_primesN n = (List.range' 2 (n - 1)).filter (fun m => decide (Nat.Prime m)) := by
  cases n with
  | zero => rfl
  | succ m =>
    unfold get_primesN
    exact sieve_fold (m + 1) m 2 [] _ (by omega) (by omega) (sieveInv_init (m + 1))

theorem mem_get_primesN {n q : Nat} : q ∈ get_primesN n ↔ Nat.Prime q ∧ q ≤ n := by
  rw [get_primesN_eq, List.mem_filter, List.mem_range'_1]
  simp only [decide_eq_true_eq]
  constructor
  · rintro ⟨⟨h1, h2⟩, hp⟩
    exact ⟨hp, by omega⟩
  · rintro ⟨hp, hn⟩
    have h2 := hp.two_le
    exact ⟨⟨h2, by omega⟩, hp⟩

theorem sorted_get_primesN (n : Nat) : List.Pairwise (· < ·) (get_primesN n) := by
  rw [get_primesN_eq]
  exact List.Pairwise.sublist (List.filter_sublist _) (List.pairwise_lt_range' 2 (n - 1) 1)

theorem two_le_of_mem_get_primesN {n q : Nat} (h : q ∈ get_primesN n) : 2 ≤ q :=
  (mem_get_primesN.mp h).1.two_le

/-! ## Factorizer correctness -/

lemma divideOutF_spec : ∀ (fuel p d : Nat), d ≤ fuel → 2 ≤ p → 0 < d →
    (divideOutF fuel p d).1.prod * (divideOutF fuel p d).2 = d ∧
    (∀ q ∈ (divideOutF fuel p d).1, q = p) ∧
    ¬ p ∣ (divideOutF fuel p d).2 ∧ 0 < (divideOutF fuel p d).2 := by
  intro fuel
  induction fuel with
  | zero => intro p d hle _ hd; omega
  | succ f ih =>
    intro p d hle hp hd
    by_cases hg : 2 ≤ p ∧ 0 < d ∧ d % p = 0
    · have hdvd : p ∣ d := Nat.dvd_of_mod_eq_zero hg.2.2
      have hple : p ≤ d := Nat.le_of_dvd hd hdvd
      have hlt : d / p < d := Nat.div_lt_self hd (by omega)
      have hpos : 0 < d / p := Nat.div_pos hple (by omega)
      obtain ⟨h1, h2, h3, h4⟩ := ih p (d / p) (by omega) hp hpos
      simp only [divideOutF, if_pos hg]
      refine ⟨?_, ?_, h3, h4⟩
      · simp only [List.prod_cons]
        rw [mul_assoc, h1, Nat.mul_div_cancel' hdvd]
      · intro q hq
        rcases List.mem_cons.mp hq with rfl | hq
        · rfl
        · exact h2 q hq
    · have hnd : ¬ p ∣ d := by
        intro hdvd
        exact hg ⟨hp, hd, Nat.mod_eq_zero_of_dvd hdvd⟩
      simp only [divideOutF, if_neg hg]
      exact ⟨by simp, by simp, hnd, hd⟩

lemma divideOut_spec (p d : Nat) (hp : 2 ≤ p) (hd : 0 < d) :
    (divideOut p d).1.prod * (divideOut p d).2 = d ∧
    (∀ q ∈ (divideOut p d).1, q = p) ∧
    ¬ p ∣ (divideOut p d).2 ∧ 0 < (divideOut p d).2 :=
  divideOutF_spec d p d le_rfl hp hd

lemma trialDivide_spec : ∀ (ps : List Nat) (d : Nat), (∀ p ∈ ps, 2 ≤ p) → 0 < d →
    (trialDivide ps d).1.prod * (trialDivide ps d).2 = d ∧
    0 < (trialDivide ps d).2 ∧
    (∀ q ∈ (trialDivide ps d).1, q ∈ ps ∧ q * q ≤ d) ∧
    (List.Pairwise (· < ·) ps →
      ∀ q ∈ ps, q ∣ (trialDivide ps d).2 → (trialDivide ps d).2 < q * q) := by
  intro ps
  induction ps with
  | nil =>
    intro d _ hd
    exact ⟨by simp [trialDivide], hd, by simp [trialDivide], by simp⟩
  | cons p ps ih =>
    intro d hmem hd
    have hp2 : 2 ≤ p := hmem p (List.mem_cons_self p ps)
    by_cases hbreak : d < p * p
    · simp only [trialDivide, if_pos hbreak]
      refine ⟨by simp, hd, by simp, ?_⟩
      intro hsort q hq _
      rcases List.mem_cons.mp hq with rfl | hq
      · exact hbreak
      · have hpq : p < q := (List.pairwise_cons.mp hsort).1 q hq
        nlinarith
    · obtain ⟨hr1, hr2, hr3, hr4⟩ := divideOut_spec p d hp2 hd
      obtain ⟨hs1, hs2, hs3, hs4⟩ :=
        ih (divideOut p d).2 (fun q hq => hmem q (List.mem_cons_of_mem p hq)) hr4
      have hres_dvd : (divideOut p d).2 ∣ d :=
        ⟨(divideOut p d).1.prod, by rw [Nat.mul_comm]; exact hr1.symm⟩
      have hres_le : (divideOut p d).2 ≤ d := Nat.le_of_dvd hd hres_dvd
      simp only [trialDivide, if_neg hbreak]
      refine ⟨?_, hs2, ?_, ?_⟩
      · rw [List.prod_append, mul_assoc, hs1, hr1]
      · intro q hq
        rcases List.mem_append.mp hq with hq | hq
        · have h1 := hr2 q hq
          rw [h1]
          exact ⟨List.mem_cons_self p ps, by omega⟩
        · obtain ⟨hmem', hle⟩ := hs3 q hq
          exact ⟨List.mem_cons_of_mem p hmem', by omega⟩
      · intro hsort q hq hdvd
        rcases List.mem_cons.mp hq with h1 | hq
        · exfalso
          have hsub : (trialDivide ps (divideOut p d).2).2 ∣ (divideOut p d).2 :=
            ⟨(trialDivide ps (divideOut p d).2).1.prod, by rw [Nat.mul_comm]; exact hs1.symm⟩
          rw [h1] at hdvd
          exact hr3 (dvd_trans hdvd hsub)
        · exact hs4 (List.pairwise_cons.mp hsort).2 q hq hdvd

/-! ## The descending sort -/

lemma insertDesc_perm (a : Nat) (l : List Nat) : (insertDesc a l).Perm (a :: l) := by
  induction l with
  | nil => exact List.Perm.refl _
  | cons b bs ih =>
    by_cases h : b ≤ a
    · simp only [insertDesc, if_pos h]
      exact List.Perm.refl _
    · simp only [insertDesc, if_neg h]
      exact (ih.cons b).trans (List.Perm.swap a b bs)

lemma sortDesc_perm (l : List Nat) : (sortDesc l).Perm l := by
  induction l with
  | nil => exact List.Perm.refl _
  | cons a as ih => exact (insertDesc_perm a (sortDesc as)).trans (ih.cons a)

lemma insertDesc_sorted {a : Nat} {l : List Nat}
    (h : List.Pairwise (fun x y => y ≤ x) l) :
    List.Pairwise (fun x y => y ≤ x) (insertDesc a l) := by
  induction l with
  | nil => simp [insertDesc]
  | cons b bs ih =>
    have htail := List.pairwise_cons.mp h
    by_cases hba : b ≤ a
    · simp only [insertDesc, if_pos hba]
      refine List.pairwise_cons.mpr ⟨?_, h⟩
      intro x hx
      rcases List.mem_cons.mp hx with rfl | hx
      · exact hba
      · exact le_trans (htail.1 x hx) hba
    · simp only [insertDesc, if_neg hba]
      refine List.pairwise_cons.mpr ⟨?_, ih htail.2⟩
      intro x hx
      have hx' : x ∈ a :: bs := (insertDesc_perm a bs).mem_iff.mp hx
      rcases List.mem_cons.mp hx' with rfl | hx2
      · omega
      · exact htail.1 x hx2

lemma sortDesc_sorted (l : List Nat) :
    List.Pairwise (fun x y => y ≤ x) (sortDesc l) := by
  induction l with
  | nil => simp [sortDesc]
  | cons a as ih => exact insertDesc_sorted ih

lemma factors_desc (n : Nat) (ps : List Nat) :
    List.Pairwise (fun x y => y ≤ x) (get_prime_factors n ps) :=
  sortDesc_sorted _

/-! ## Factor lists inside the pipeline -/

lemma residual_spec {L n : Nat} (hn2 : 2 ≤ n) (hnL : n ≤ L)
    (hres : 1 < (trialDivide (get_primesN L) n).2) :
    Nat.Prime (trialDivide (get_primesN L) n).2 ∧
      (trialDivide (get_primesN L) n).2 ∈ get_primesN L := by
  have spec := trialDivide_spec (get_primesN L) n
    (fun p hp => two_le_of_mem_get_primesN hp) (by omega)
  have hdvd : (trialDivide (get_primesN L) n).2 ∣ n :=
    ⟨(trialDivide (get_primesN L) n).1.prod, by rw [Nat.mul_comm]; exact spec.1.symm⟩
  have hle : (trialDivide (get_primesN L) n).2 ≤ n := Nat.le_of_dvd (by omega) hdvd
  have hprime : Nat.Prime (trialDivide (get_primesN L) n).2 := by
    by_contra hnp
    have hq := Nat.minFac_prime (show (trialDivide (get_primesN L) n).2 ≠ 1 by omega)
    have hqd := Nat.minFac_dvd (trialDivide (get_primesN L) n).2
    have hsq := Nat.minFac_sq_le_self
      (show 0 < (trialDivide (get_primesN L) n).2 by omega) hnp
    have hqL : ((trialDivide (get_primesN L) n).2).minFac ≤ L :=
      le_trans (le_trans (Nat.minFac_le (by omega)) hle) hnL
    have hmem : ((trialDivide (get_primesN L) n).2).minFac ∈ get_primesN L :=
      mem_get_primesN.mpr ⟨hq, hqL⟩
    have := spec.2.2.2 (sorted_get_primesN L) _ hmem hqd
    nlinarith [hsq]
  exact ⟨hprime, mem_get_primesN.mpr ⟨hprime, le_trans hle hnL⟩⟩

lemma mem_factors {L n q : Nat} (hn2 : 2 ≤ n) (hnL : n ≤ L)
    (hq : q ∈ get_prime_factors n (get_primesN L)) : q ∈ get_primesN L := by
  have spec := trialDivide_spec (get_primesN L) n
    (fun p hp => two_le_of_mem_get_primesN hp) (by omega)
  unfold get_prime_factors at hq
  have hq' := (sortDesc_perm _).mem_iff.mp hq
  by_cases hres : 1 < (trialDivide (get_primesN L) n).2
  · rw [if_pos hres] at hq'
    rcases List.mem_append.mp hq' with hfs | hlast
    · exact (spec.2.2.1 q hfs).1
    · rw [List.mem_singleton.mp hlast]
      exact (residual_spec hn2 hnL hres).2
  · rw [if_neg hres] at hq'
    exact (spec.2.2.1 q hq').1

lemma factors_ne_nil {n : Nat} (ps : List Nat) (hmem : ∀ p ∈ ps, 2 ≤ p)
    (hn : 2 ≤ n) : get_prime_factors n ps ≠ [] := by
  have spec := trialDivide_spec ps n hmem (by omega)
  unfold get_prime_factors
  intro hnil
  have hperm := sortDesc_perm (if 1 < (trialDivide ps n).2 then
    (trialDivide ps n).1 ++ [(trialDivide ps n).2] else (trialDivide ps n).1)
  rw [hnil] at hperm
  have hnil' := hperm.symm.eq_nil
  by_cases hres : 1 < (trialDivide ps n).2
  · rw [if_pos hres] at hnil'
    exact absurd hnil' (by simp)
  · rw [if_neg hres] at hnil'
    have : (trialDivide ps n).1.prod = 1 := by rw [hnil']; simp
    have h2 := spec.1
    rw [this, one_mul] at h2
    omega

lemma factors_prime {L p : Nat} (hp : Nat.Prime p) (hL : p ≤ L) :
    get_prime_factors p (get_primesN L) = [p] := by
  have hp2 := hp.two_le
  have spec := trialDivide_spec (get_primesN L) p
    (fun q hq => two_le_of_mem_get_primesN hq) (by omega)
  have hfs : (trialDivide (get_primesN L) p).1 = [] := by
    rw [List.eq_nil_iff_forall_not_mem]
    intro q hq
    obtain ⟨hqmem, hqsq⟩ := spec.2.2.1 q hq
    have hq2 : 2 ≤ q := two_le_of_mem_get_primesN hqmem
    have hqdvd : q ∣ p := dvd_trans (List.dvd_prod hq)
      ⟨(trialDivide (get_primesN L) p).2, spec.1.symm⟩
    rcases (Nat.Prime.eq_one_or_self_of_dvd hp q hqdvd) with h1 | h1
    · omega
    · subst h1; nlinarith
  have hres : (trialDivide (get_primesN L) p).2 = p := by
    have h1 := spec.1
    rw [hfs] at h1
    simpa using h1
  show sortDesc (if 1 < (trialDivide (get_primesN L) p).2 then
    (trialDivide (get_primesN L) p).1 ++ [(trialDivide (get_primesN L) p).2]
    else (trialDivide (get_primesN L) p).1) = [p]
  rw [hfs, hres, if_pos hp.one_lt]
  simp [sortDesc, insertDesc]

/-! ## Rank lookup lemmas -/

lemma idxOf?_getElem : ∀ (l : List Nat) (q i : Nat),
    PathGen.idxOf? q l = some i → l[i]? = some q := by
  intro l
  induction l with
  | nil => intro q i h; simp [PathGen.idxOf?] at h
  | cons p ps ih =>
    intro q i h
    by_cases hpq : p = q
    · simp only [PathGen.idxOf?, if_pos hpq] at h
      subst hpq
      cases h
      simp
    · simp only [PathGen.idxOf?, if_neg hpq, Option.map_eq_some'] at h
      obtain ⟨j, hj, rfl⟩ := h
      simpa using ih q j hj

lemma idxOf?_isSome_of_mem : ∀ (l : List Nat) (q : Nat), q ∈ l →
    ∃ i, PathGen.idxOf? q l = some i := by
  intro l
  induction l with
  | nil => intro q h; simp at h
  | cons p ps ih =>
    intro q h
    by_cases hpq : p = q
    · exact ⟨0, by simp [PathGen.idxOf?, if_pos hpq]⟩
    · rcases List.mem_cons.mp h with h1 | h1
      · exact absurd h1.symm hpq
      · obtain ⟨i, hi⟩ := ih q h1
        exact ⟨i + 1, by simp [PathGen.idxOf?, if_neg hpq, hi]⟩

lemma prime_to_index_some_of_mem {l : List Nat} {q : Nat} (h : q ∈ l) :
    ∃ r, PathGen.prime_to_index l q = some r ∧ 1 ≤ r := by
  obtain ⟨i, hi⟩ := idxOf?_isSome_of_mem l q h
  exact ⟨i + 1, by simp [PathGen.prime_to_index, hi], by omega⟩

lemma idxOf?_mono {l : List Nat} (hs : List.Pairwise (· < ·) l) {a b ia ib : Nat}
    (ha : PathGen.idxOf? a l = some ia) (hb : PathGen.idxOf? b l = some ib)
    (hab : a ≤ b) : ia ≤ ib := by
  have hga := idxOf?_getElem l a ia ha
  have hgb := idxOf?_getElem l b ib hb
  obtain ⟨hia, hga'⟩ := List.getElem?_eq_some.mp hga
  obtain ⟨hib, hgb'⟩ := List.getElem?_eq_some.mp hgb
  by_contra hlt
  have hba : ib < ia := by omega
  have := (List.pairwise_iff_getElem.mp hs) ib ia hib hia hba
  rw [hga', hgb'] at this
  omega

lemma rankD_eq_of_some {l : List Nat} {q r d : Nat}
    (h : PathGen.prime_to_index l q = some r) : PathGen.rankD l q d = r := by
  simp [PathGen.rankD, h]

/-! ## Coordinate mapper characterisation -/

namespace PathGen

/-- The boundary coordinate the loop assigns to `n` (the dict entry
`coordinates[n]`, with `coordinates[1] = (0,0,0)` from line 49). -/
def coordOf (ps : List Nat) (n : Nat) : Nat × Nat × Nat :=
  if n = 1 then (0, 0, 0)
  else (((coordAndType ps (get_prime_factors n ps)).toOption.map Prod.fst).getD (0, 0, 0))

/-- The tag the loop assigns to `n`'s boundary point. -/
def typeOf (ps : List Nat) (n : Nat) : String :=
  if n = 1 then "origin"
  else (((coordAndType ps (get_prime_factors n ps)).toOption.map Prod.snd).getD "other")

lemma ok_bind {α β : Type} (a : α) (f : α → Except String β) :
    (Except.ok (ε := String) a >>= f) = f a := rfl

lemma lookupRank_some {ps : List Nat} {q r : Nat}
    (h : prime_to_index ps q = some r) : lookupRank ps q = Except.ok r := by
  simp [lookupRank, h]

lemma coordAndType_single {ps : List Nat} {a ra : Nat}
    (hra : prime_to_index ps a = some ra) :
    coordAndType ps [a] = Except.ok ((ra, 0, 0), "x_axis") := by
  show (lookupRank ps a >>= fun r => pure ((r, 0, 0), "x_axis")) = _
  rw [lookupRank_some hra, ok_bind]
  rfl

lemma coordAndType_pair {ps : List Nat} {a b ra rb : Nat}
    (hra : prime_to_index ps a = some ra) (hrb : prime_to_index ps b = some rb) :
    coordAndType ps [a, b] =
      Except.ok ((ra, rb, 0), if a = b then "diagonal" else "other") := by
  show (lookupRank ps a >>= fun x => lookupRank ps b >>= fun y =>
    if a = b then pure ((x, y, 0), "diagonal") else pure ((x, y, 0), "other")) = _
  rw [lookupRank_some hra, ok_bind, lookupRank_some hrb, ok_bind]
  by_cases hab : a = b
  · rw [if_pos hab, if_pos hab]; rfl
  · rw [if_neg hab, if_neg hab]; rfl

lemma coordAndType_triple {ps : List Nat} {a b c ra rb rc : Nat}
    (hra : prime_to_index ps a = some ra) (hrb : prime_to_index ps b = some rb)
    (hrc : prime_to_index ps c = some rc) :
    coordAndType ps [a, b, c] =
      Except.ok ((ra, rb, rc), if a = b ∧ b = c then "z_axis" else "other") := by
  show (lookupRank ps a >>= fun x => lookupRank ps b >>= fun y =>
    lookupRank ps c >>= fun z =>
    if a = b ∧ b = c then pure ((x, y, z), "z_axis") else pure ((x, y, z), "other")) = _
  rw [lookupRank_some hra, ok_bind, lookupRank_some hrb, ok_bind,
    lookupRank_some hrc, ok_bind]
  by_cases habc : a = b ∧ b = c
  · rw [if_pos habc, if_pos habc]; rfl
  · rw [if_neg habc, if_neg habc]; rfl

lemma coordAndType_big (ps : List Nat) (a b c d : Nat) (rest : List Nat) :
    coordAndType ps (a :: b :: c :: d :: rest) =
      Except.ok (foldAxes ps 3 (d :: rest)
        (rankD ps a 0, rankD ps b 0, rankD ps c 0), "other") := rfl

lemma coordAndType_ok_shape {ps factors : List Nat} (hne : factors ≠ [])
    (hres : ∀ q ∈ factors, ∃ r, prime_to_index ps q = some r) :
    ∃ c t, coordAndType ps factors = Except.ok (c, t) ∧
      (t = "x_axis" ∨ t = "diagonal" ∨ t = "z_axis" ∨ t = "other") := by
  match factors with
  | [] => exact absurd rfl hne
  | [a] =>
    obtain ⟨ra, hra⟩ := hres a (by simp)
    exact ⟨(ra, 0, 0), "x_axis", coordAndType_single hra, by simp⟩
  | [a, b] =>
    obtain ⟨ra, hra⟩ := hres a (by simp)
    obtain ⟨rb, hrb⟩ := hres b (by simp)
    refine ⟨(ra, rb, 0), _, coordAndType_pair hra hrb, ?_⟩
    by_cases hab : a = b
    · simp [hab]
    · simp [hab]
  | [a, b, c] =>
    obtain ⟨ra, hra⟩ := hres a (by simp)
    obtain ⟨rb, hrb⟩ := hres b (by simp)
    obtain ⟨rc, hrc⟩ := hres c (by simp)
    refine ⟨(ra, rb, rc), _, coordAndType_triple hra hrb hrc, ?_⟩
    by_cases habc : a = b ∧ b = c
    · simp [habc]
    · simp [habc]
  | a :: b :: c :: d :: rest =>
    exact ⟨_, "other", coordAndType_big ps a b c d rest, by simp⟩

/-- Inside the pipeline (`2 ≤ n ≤ L`, table from `get_primes(L)`) every
lookup resolves, so the mapper returns `ok` with the recorded coordinate
and tag. -/
lemma coordAndType_resolves {L n : Nat} (h2 : 2 ≤ n) (hL : n ≤ L) :
    coordAndType (get_primesN L) (get_prime_factors n (get_primesN L)) =
      Except.ok (coordOf (get_primesN L) n, typeOf (get_primesN L) n) := by
  obtain ⟨c, t, hok, _⟩ := coordAndType_ok_shape
    (factors_ne_nil (get_primesN L) (fun p hp => two_le_of_mem_get_primesN hp) h2)
    (fun q hq => by
      obtain ⟨r, hr, _⟩ := prime_to_index_some_of_mem (mem_factors h2 hL hq)
      exact ⟨r, hr⟩)
  rw [hok]
  unfold coordOf typeOf
  rw [if_neg (by omega), if_neg (by omega), hok]
  rfl

lemma typeOf_mem_four {L n : Nat} (h2 : 2 ≤ n) (hL : n ≤ L) :
    typeOf (get_primesN L) n = "x_axis" ∨ typeOf (get_primesN L) n = "diagonal" ∨
    typeOf (get_primesN L) n = "z_axis" ∨ typeOf (get_primesN L) n = "other" := by
  obtain ⟨c, t, hok, hmem⟩ := coordAndType_ok_shape
    (factors_ne_nil (get_primesN L) (fun p hp => two_le_of_mem_get_primesN hp) h2)
    (fun q hq => by
      obtain ⟨r, hr, _⟩ := prime_to_index_some_of_mem (mem_factors h2 hL hq)
      exact ⟨r, hr⟩)
  have := coordAndType_resolves h2 hL
  rw [hok] at this
  cases this
  exact hmem

lemma typeOf_mem_five {L n : Nat} (h1 : 1 ≤ n) (hL : n ≤ L) :
    typeOf (get_primesN L) n = "origin" ∨ typeOf (get_primesN L) n = "x_axis" ∨
    typeOf (get_primesN L) n = "diagonal" ∨ typeOf (get_primesN L) n = "z_axis" ∨
    typeOf (get_primesN L) n = "other" := by
  by_cases hn1 : n = 1
  · subst hn1; left; rfl
  · have := typeOf_mem_four (by omega) hL
    tauto

/-! ## The interpolation block -/

lemma mergeTag_idem (t p : String) : mergeTag t (mergeTag t p) = mergeTag t p := by
  unfold mergeTag
  split_ifs <;> simp_all

/-- Closed form of the ten-step interpolation loop: ten points, nine
intermediate tags (all equal, since the cascade is idempotent) and the
boundary tag. -/
lemma interp_fold (last coord : Nat × Nat × Nat) (t : String)
    (pts : List Point) (tags : List String) :
    (List.range' 1 10).foldl (interpStep last coord t 10) (pts, tags) =
      (pts ++ (List.range' 1 10).map
        (fun (i : Nat) => lerp last coord ((i : ℚ) / ((10 : Nat) : ℚ))),
       tags ++ (List.replicate 9 (mergeTag t (tags.getLastD "")) ++ [t])) := by
  have h10 : List.range' 1 10 = [1, 2, 3, 4, 5, 6, 7, 8, 9, 10] := rfl
  rw [h10]
  simp [interpStep, List.getLastD_concat, mergeTag_idem, List.replicate]

/-! ## Closed form of the whole path -/

/-- The ten interpolated points generated while processing integer `n`. -/
def blockPoints (ps : List Nat) (n : Nat) : List Point :=
  (List.range' 1 10).map
    (fun (i : Nat) => lerp (coordOf ps (n - 1)) (coordOf ps n) ((i : ℚ) / ((10 : Nat) : ℚ)))

/-- The ten tags generated while processing integer `n`. -/
def blockTags (ps : List Nat) (n : Nat) : List String :=
  List.replicate 9 (mergeTag (typeOf ps n) (typeOf ps (n - 1))) ++ [typeOf ps n]

/-- The path after the integers `2 … k` have been processed. -/
def pathUpTo (L k : Nat) : List Point :=
  ((0 : ℚ), (0 : ℚ), (0 : ℚ)) :: (List.range' 2 (k - 1)).flatMap (blockPoints (get_primesN L))

/-- The tag list after the integers `2 … k` have been processed. -/
def tagsUpTo (L k : Nat) : List String :=
  "origin" :: (List.range' 2 (k - 1)).flatMap (blockTags (get_primesN L))

/-- The `number_end_indices` association list after `2 … k`. -/
def endIdxUpTo (k : Nat) : List (Nat × Nat) :=
  (List.range' 1 k).map (fun n => (n, 10 * (n - 1)))

/-- The loop state after the integers `2 … k` have been processed. -/
def stateAt (L k : Nat) : PathState :=
  ⟨coordOf (get_primesN L) k, pathUpTo L k, endIdxUpTo k, tagsUpTo L k⟩

lemma length_blockPoints (ps : List Nat) (n : Nat) : (blockPoints ps n).length = 10 := by
  unfold blockPoints
  rw [List.length_map, List.length_range']

lemma length_blockTags (ps : List Nat) (n : Nat) : (blockTags ps n).length = 10 := by
  unfold blockTags
  rw [List.length_append, List.length_replicate]
  rfl

lemma length_flatMap_blocks {α : Type} (f : Nat → List α) (l : List Nat)
    (hf : ∀ a ∈ l, (f a).length = 10) : (l.flatMap f).length = 10 * l.length := by
  induction l with
  | nil => simp
  | cons a as ih =>
    rw [List.flatMap_cons, List.length_append, hf a (List.mem_cons_self a as),
      ih (fun b hb => hf b (List.mem_cons_of_mem a hb))]
    simp [List.length_cons]
    ring

lemma length_pathUpTo (L k : Nat) : (pathUpTo L k).length = 1 + 10 * (k - 1) := by
  unfold pathUpTo
  rw [List.length_cons,
    length_flatMap_blocks _ _ (fun a _ => length_blockPoints (get_primesN L) a)]
  simp [List.length_range']
  omega

lemma length_tagsUpTo (L k : Nat) : (tagsUpTo L k).length = 1 + 10 * (k - 1) := by
  unfold tagsUpTo
  rw [List.length_cons,
    length_flatMap_blocks _ _ (fun a _ => length_blockTags (get_primesN L) a)]
  simp [List.length_range']
  omega

lemma range'_two_concat (k : Nat) (h1 : 1 ≤ k) :
    List.range' 2 ((k + 1) - 1) = List.range' 2 (k - 1) ++ [k + 1] := by
  have : (k + 1) - 1 = (k - 1) + 1 := by omega
  rw [this, List.range'_concat]
  have : 2 + 1 * (k - 1) = k + 1 := by omega
  rw [this]

lemma getLastD_tagsUpTo (L k : Nat) (h1 : 1 ≤ k) :
    (tagsUpTo L k).getLastD "" = typeOf (get_primesN L) k := by
  induction k with
  | zero => omega
  | succ j ih =>
    by_cases hj : j = 0
    · subst hj; rfl
    · have hj1 : 1 ≤ j := by omega
      unfold tagsUpTo
      rw [range'_two_concat j hj1, List.flatMap_append]
      show (("origin" :: _) ++ _).getLastD "" = _
      unfold blockTags
      rw [List.flatMap_cons, List.flatMap_nil, List.append_nil, ← List.append_assoc,
        List.getLastD_concat]

/-- One step of the main loop, in closed form. -/
lemma process_step (L k : Nat) (h1 : 1 ≤ k) (hk : k + 1 ≤ L) :
    processNumber (get_primesN L) (stateAt L k) (k + 1) = Except.ok (stateAt L (k + 1)) := by
  have h2 : 2 ≤ k + 1 := by omega
  simp only [processNumber, stateAt, coordAndType_resolves h2 hk, ok_bind,
    interp_fold, getLastD_tagsUpTo L k h1]
  have hpath : pathUpTo L k ++ (List.range' 1 10).map
      (fun (i : Nat) => lerp (coordOf (get_primesN L) k) (coordOf (get_primesN L) (k + 1))
        ((i : ℚ) / ((10 : Nat) : ℚ))) = pathUpTo L (k + 1) := by
    show pathUpTo L k ++ blockPoints (get_primesN L) (k + 1) = _
    unfold pathUpTo
    rw [range'_two_concat k h1, List.flatMap_append, List.flatMap_cons, List.flatMap_nil,
      List.append_nil, List.cons_append]
  have htags : tagsUpTo L k ++
      (List.replicate 9 (mergeTag (typeOf (get_primesN L) (k + 1)) (typeOf (get_primesN L) k)) ++
        [typeOf (get_primesN L) (k + 1)]) = tagsUpTo L (k + 1) := by
    show tagsUpTo L k ++ blockTags (get_primesN L) (k + 1) = _
    unfold tagsUpTo
    rw [range'_two_concat k h1, List.flatMap_append, List.flatMap_cons, List.flatMap_nil,
      List.append_nil, List.cons_append]
  rw [hpath, htags]
  have hlen : (pathUpTo L (k + 1)).length = 1 + 10 * k := by
    rw [length_pathUpTo]
    omega
  rw [hlen]
  have hidx : endIdxUpTo k ++ [(k + 1, 1 + 10 * k - 1)] = endIdxUpTo (k + 1) := by
    unfold endIdxUpTo
    rw [List.range'_concat 1 k, List.map_append]
    simp only [List.map_cons, List.map_nil]
    have h1' : 1 + 1 * k = k + 1 := by omega
    have h2' : 1 + 10 * k - 1 = 10 * ((k + 1) - 1) := by omega
    rw [h1', h2']
  rw [hidx]
  rfl

/-- The whole loop, in closed form. -/
lemma path_fold (L : Nat) : ∀ k, 1 ≤ k → k ≤ L →
    (List.range' 2 (k - 1)).foldlM (processNumber (get_primesN L))
      (⟨(0, 0, 0), [((0 : ℚ), (0 : ℚ), (0 : ℚ))], [(1, 0)], ["origin"]⟩ : PathState) =
      Except.ok (stateAt L k) := by
  intro k
  induction k with
  | zero => omega
  | succ j ih =>
    intro h1 hk
    by_cases hj : j = 0
    · subst hj
      rfl
    · have hj1 : 1 ≤ j := by omega
      rw [range'_two_concat j hj1, List.foldlM_append]
      rw [ih hj1 (by omega)]
      simp only [ok_bind]
      rw [List.foldlM_cons, process_step L j hj1 hk]
      simp only [ok_bind]
      rw [List.foldlM_nil]
      rfl

/-- `generate_full_path`'s result for limit ≥ 1, in closed form. -/
theorem generate_full_pathN_eq (L : Nat) (hL : 1 ≤ L) :
    generate_full_pathN L = Except.ok (pathUpTo L L, endIdxUpTo L, tagsUpTo L L) := by
  simp only [generate_full_pathN, path_fold L L hL le_rfl, ok_bind]
  rfl

/-! ## Ordering of the boundary coordinates (x ≥ y ≥ z) -/

lemma prime_to_index_mono {L a b ra rb : Nat}
    (ha : prime_to_index (get_primesN L) a = some ra)
    (hb : prime_to_index (get_primesN L) b = some rb) (hab : a ≤ b) : ra ≤ rb := by
  unfold prime_to_index at ha hb
  obtain ⟨ia, hia, hra⟩ := Option.map_eq_some'.mp ha
  obtain ⟨ib, hib, hrb⟩ := Option.map_eq_some'.mp hb
  have := idxOf?_mono (sorted_get_primesN L) hia hib hab
  omega

lemma rankD_mono_of_mem {L a b : Nat} (ha : a ∈ get_primesN L) (hb : b ∈ get_primesN L)
    (hab : a ≤ b) (d1 d2 : Nat) :
    rankD (get_primesN L) a d1 ≤ rankD (get_primesN L) b d2 := by
  obtain ⟨ra, hra, _⟩ := prime_to_index_some_of_mem ha
  obtain ⟨rb, hrb, _⟩ := prime_to_index_some_of_mem hb
  rw [rankD_eq_of_some hra, rankD_eq_of_some hrb]
  exact prime_to_index_mono hra hrb hab

/-- The cyclic fold preserves `x ≥ y ≥ z` when the rank stream is
non-increasing; the invariant tracks which axis receives the next rank. -/
lemma foldAxes_order (ps : List Nat) : ∀ (fs : List Nat) (i x y z : Nat),
    List.Pairwise (fun a b => rankD ps b 1 ≤ rankD ps a 1) fs →
    ((i % 3 = 0 → y ≤ x ∧ z ≤ y) ∧
     (i % 3 = 1 → y ≤ x ∧ z ≤ y ∧ ∀ f ∈ fs, y + rankD ps f 1 ≤ x) ∧
     (i % 3 = 2 → y ≤ x ∧ z ≤ y ∧ ∀ f ∈ fs, z + rankD ps f 1 ≤ y)) →
    (foldAxes ps i fs (x, y, z)).2.1 ≤ (foldAxes ps i fs (x, y, z)).1 ∧
    (foldAxes ps i fs (x, y, z)).2.2 ≤ (foldAxes ps i fs (x, y, z)).2.1 := by
  intro fs
  induction fs with
  | nil =>
    intro i x y z _ hinv
    have h3 : i % 3 = 0 ∨ i % 3 = 1 ∨ i % 3 = 2 := by omega
    simp only [foldAxes]
    rcases h3 with h | h | h
    · exact hinv.1 h
    · obtain ⟨a, b, _⟩ := hinv.2.1 h; exact ⟨a, b⟩
    · obtain ⟨a, b, _⟩ := hinv.2.2 h; exact ⟨a, b⟩
  | cons f fs ih =>
    intro i x y z hpw hinv
    obtain ⟨hhead, htail⟩ := List.pairwise_cons.mp hpw
    have h3 : i % 3 = 0 ∨ i % 3 = 1 ∨ i % 3 = 2 := by omega
    simp only [foldAxes]
    rcases h3 with h | h | h
    · rw [if_pos (by omega : i % 3 = 0), if_neg (by omega : ¬ i % 3 = 1),
        if_neg (by omega : ¬ i % 3 = 2)]
      obtain ⟨hxy, hyz⟩ := hinv.1 h
      apply ih (i + 1) (x + rankD ps f 1) y z htail
      refine ⟨fun hc => absurd hc (by omega), fun _ => ⟨by omega, hyz, ?_⟩,
        fun hc => absurd hc (by omega)⟩
      intro g hg
      have := hhead g hg
      omega
    · rw [if_neg (by omega : ¬ i % 3 = 0), if_pos (by omega : i % 3 = 1),
        if_neg (by omega : ¬ i % 3 = 2)]
      obtain ⟨hxy, hyz, hbound⟩ := hinv.2.1 h
      have hfx : y + rankD ps f 1 ≤ x := hbound f (List.mem_cons_self f fs)
      apply ih (i + 1) x (y + rankD ps f 1) z htail
      refine ⟨fun hc => absurd hc (by omega), fun hc => absurd hc (by omega),
        fun _ => ⟨by omega, by omega, ?_⟩⟩
      intro g hg
      have := hhead g hg
      omega
    · rw [if_neg (by omega : ¬ i % 3 = 0), if_neg (by omega : ¬ i % 3 = 1),
        if_pos (by omega : i % 3 = 2)]
      obtain ⟨hxy, hyz, hbound⟩ := hinv.2.2 h
      have hfz : z + rankD ps f 1 ≤ y := hbound f (List.mem_cons_self f fs)
      apply ih (i + 1) x y (z + rankD ps f 1) htail
      refine ⟨fun _ => ⟨hxy, hfz⟩, fun hc => absurd hc (by omega),
        fun hc => absurd hc (by omega)⟩

/-- Every boundary coordinate produced inside the pipeline satisfies
`x ≥ y ≥ z`, in all factor-count branches. -/
lemma coordOf_order {L n : Nat} (h1 : 1 ≤ n) (hn : n ≤ L) :
    (coordOf (get_primesN L) n).2.1 ≤ (coordOf (get_primesN L) n).1 ∧
    (coordOf (get_primesN L) n).2.2 ≤ (coordOf (get_primesN L) n).2.1 := by
  by_cases hn1 : n = 1
  · subst hn1
    exact ⟨le_refl 0, le_refl 0⟩
  · have hn2 : 2 ≤ n := by omega
    have hne := factors_ne_nil (get_primesN L)
      (fun p hp => two_le_of_mem_get_primesN hp) hn2
    have hsorted := factors_desc n (get_primesN L)
    have hmem : ∀ q ∈ get_prime_factors n (get_primesN L), q ∈ get_primesN L :=
      fun q hq => mem_factors hn2 hn hq
    cases hsh : get_prime_factors n (get_primesN L) with
    | nil => exact absurd hsh hne
    | cons a tl =>
      rw [hsh] at hsorted hmem
      cases tl with
      | nil =>
        obtain ⟨ra, hra, _⟩ := prime_to_index_some_of_mem (hmem a (by simp))
        have hco : coordOf (get_primesN L) n = (ra, 0, 0) := by
          unfold coordOf
          rw [if_neg hn1, hsh, coordAndType_single hra]
          rfl
        rw [hco]
        exact ⟨Nat.zero_le ra, le_refl 0⟩
      | cons b tl2 =>
        have hba : b ≤ a := (List.pairwise_cons.mp hsorted).1 b (by simp)
        cases tl2 with
        | nil =>
          obtain ⟨ra, hra, _⟩ := prime_to_index_some_of_mem (hmem a (by simp))
          obtain ⟨rb, hrb, _⟩ := prime_to_index_some_of_mem (hmem b (by simp))
          have hco : coordOf (get_primesN L) n =
              (ra, rb, 0) := by
            unfold coordOf
            rw [if_neg hn1, hsh, coordAndType_pair hra hrb]
            rfl
          rw [hco]
          exact ⟨prime_to_index_mono hrb hra hba, Nat.zero_le rb⟩
        | cons c tl3 =>
          have hcb : c ≤ b :=
            ((List.pairwise_cons.mp (List.pairwise_cons.mp hsorted).2).1) c (by simp)
          cases tl3 with
          | nil =>
            obtain ⟨ra, hra, _⟩ := prime_to_index_some_of_mem (hmem a (by simp))
            obtain ⟨rb, hrb, _⟩ := prime_to_index_some_of_mem (hmem b (by simp))
            obtain ⟨rc, hrc, _⟩ := prime_to_index_some_of_mem (hmem c (by simp))
            have hco : coordOf (get_primesN L) n = (ra, rb, rc) := by
              unfold coordOf
              rw [if_neg hn1, hsh, coordAndType_triple hra hrb hrc]
              rfl
            rw [hco]
            exact ⟨prime_to_index_mono hrb hra hba, prime_to_index_mono hrc hrb hcb⟩
          | cons d rest =>
            have hco : coordOf (get_primesN L) n = foldAxes (get_primesN L) 3 (d :: rest)
                (rankD (get_primesN L) a 0, rankD (get_primesN L) b 0,
                 rankD (get_primesN L) c 0) := by
              unfold coordOf
              rw [if_neg hn1, hsh, coordAndType_big]
              rfl
            rw [hco]
            apply foldAxes_order
            · refine List.Pairwise.imp_of_mem ?_
                (List.pairwise_cons.mp (List.pairwise_cons.mp
                  (List.pairwise_cons.mp hsorted).2).2).2
              intro u v hu hv huv
              exact rankD_mono_of_mem (hmem v (by simp [hv])) (hmem u (by simp [hu])) huv 1 1
            · refine ⟨fun _ => ⟨?_, ?_⟩, fun hc => absurd hc (by omega),
                fun hc => absurd hc (by omega)⟩
              · exact rankD_mono_of_mem (hmem b (by simp)) (hmem a (by simp)) hba 0 0
              · exact rankD_mono_of_mem (hmem c (by simp)) (hmem b (by simp)) hcb 0 0

/-! ## Spec-side formulation of the high-dimensional fold (for C3)

`specFoldCoord` is written from the spec's words, independently of the
code: seed the coordinate from the first three ranks, and accumulate the
rank of the factor at each 0-based position `i ≥ 3` onto axis `i mod 3`,
formalised as position-filtered sums. -/

/-- Sum of the ranks at 0-based positions `i ≥ 3` with `i % 3 = a`. -/
def specAxisSum (ranks : List Nat) (a : Nat) : Nat :=
  ((((List.range' 0 ranks.length).zip ranks).filter
    (fun p => decide (3 ≤ p.1 ∧ p.1 % 3 = a))).map (fun p => p.2)).sum

/-- The spec's fold rule: seed `(x, y, z)` from the first three ranks, then
accumulate each later rank onto axis `position mod 3`. -/
def specFoldCoord (ranks : List Nat) : Nat × Nat × Nat :=
  (ranks.getD 0 0 + specAxisSum ranks 0,
   ranks.getD 1 0 + specAxisSum ranks 1,
   ranks.getD 2 0 + specAxisSum ranks 2)

/-- The per-axis accumulation performed by `foldAxes`, phrased recursively. -/
def axisAcc (ps : List Nat) : Nat → Nat → List Nat → Nat
  | _, _, [] => 0
  | i, a, f :: fs => (if i % 3 = a then rankD ps f 1 else 0) + axisAcc ps (i + 1) a fs

lemma foldAxes_eq_axisAcc (ps : List Nat) : ∀ (fs : List Nat) (i x y z : Nat),
    foldAxes ps i fs (x, y, z) =
      (x + axisAcc ps i 0 fs, y + axisAcc ps i 1 fs, z + axisAcc ps i 2 fs) := by
  intro fs
  induction fs with
  | nil => intro i x y z; simp [foldAxes, axisAcc]
  | cons f fs ih =>
    intro i x y z
    have h3 : i % 3 = 0 ∨ i % 3 = 1 ∨ i % 3 = 2 := by omega
    simp only [foldAxes, axisAcc]
    rcases h3 with h | h | h
    · rw [if_pos (by omega : i % 3 = 0), if_neg (by omega : ¬ i % 3 = 1),
        if_neg (by omega : ¬ i % 3 = 2), if_pos h,
        if_neg (show ¬ i % 3 = 1 by omega), if_neg (show ¬ i % 3 = 2 by omega), ih]
      simp only [Prod.mk.injEq]
      omega
    · rw [if_neg (by omega : ¬ i % 3 = 0), if_pos (by omega : i % 3 = 1),
        if_neg (by omega : ¬ i % 3 = 2), if_neg (show ¬ i % 3 = 0 by omega),
        if_pos h, if_neg (show ¬ i % 3 = 2 by omega), ih]
      simp only [Prod.mk.injEq]
      omega
    · rw [if_neg (by omega : ¬ i % 3 = 0), if_neg (by omega : ¬ i % 3 = 1),
        if_pos (by omega : i % 3 = 2), if_neg (show ¬ i % 3 = 0 by omega),
        if_neg (show ¬ i % 3 = 1 by omega), if_pos h, ih]
      simp only [Prod.mk.injEq]
      omega

lemma axisAcc_eq_zipsum (ps : List Nat) : ∀ (fs : List Nat) (i a : Nat),
    axisAcc ps i a fs =
      ((((List.range' i fs.length).zip fs).filter
        (fun p => decide (p.1 % 3 = a))).map (fun p => rankD ps p.2 1)).sum := by
  intro fs
  induction fs with
  | nil => intro i a; simp [axisAcc]
  | cons f fs ih =>
    intro i a
    rw [List.length_cons, List.range'_succ, List.zip_cons_cons, List.filter_cons]
    by_cases h : i % 3 = a
    · simp [axisAcc, h, ih (i + 1) a]
    · simp [axisAcc, h, ih (i + 1) a]

lemma specAxisSum_big (ps : List Nat) (a b c : Nat) (rest : List Nat) (ax : Nat) :
    specAxisSum ((a :: b :: c :: rest).map (fun f => rankD ps f 1)) ax =
      axisAcc ps 3 ax rest := by
  unfold specAxisSum
  rw [axisAcc_eq_zipsum]
  simp only [List.map_cons, List.length_cons, List.length_map]
  have hlen : rest.length + 1 + 1 + 1 = rest.length + 3 := by omega
  rw [hlen, ← List.range'_append 0 3 rest.length 1]
  have h1 : List.range' 0 3 = [0, 1, 2] := rfl
  have h2 : 0 + 1 * 3 = 3 := rfl
  rw [h1, h2]
  have hcons : rankD ps a 1 :: rankD ps b 1 :: rankD ps c 1 ::
      List.map (fun f => rankD ps f 1) rest =
      [rankD ps a 1, rankD ps b 1, rankD ps c 1] ++
        List.map (fun f => rankD ps f 1) rest := rfl
  rw [hcons, List.zip_append (by simp)]
  rw [List.filter_append, List.map_append, List.sum_append]
  have hfirst : List.filter (fun p => decide (3 ≤ p.1 ∧ p.1 % 3 = ax))
      ([0, 1, 2].zip [rankD ps a 1, rankD ps b 1, rankD ps c 1]) = [] := by
    simp
  rw [hfirst]
  simp only [List.map_nil, List.sum_nil, zero_add]
  have hcongr : List.filter (fun p => decide (3 ≤ p.1 ∧ p.1 % 3 = ax))
      ((List.range' 3 rest.length).zip (rest.map (fun f => rankD ps f 1))) =
      List.filter (fun p => decide (p.1 % 3 = ax))
        ((List.range' 3 rest.length).zip (rest.map (fun f => rankD ps f 1))) := by
    refine List.filter_congr ?_
    rintro ⟨p1, p2⟩ hp
    have hp1 : p1 ∈ List.range' 3 rest.length := (List.of_mem_zip hp).1
    have h3p : 3 ≤ p1 := (List.mem_range'_1.mp hp1).1
    exact decide_eq_decide.mpr (by tauto)
  rw [hcongr, List.zip_map_right, List.filter_map, List.map_map]
  rfl

lemma forall2_rank (ps : List Nat) : ∀ l : List Nat,
    (∀ f ∈ l, ∃ r, prime_to_index ps f = some r) →
    List.Forall₂ (fun f r => prime_to_index ps f = some r) l
      (l.map (fun f => rankD ps f 1)) := by
  intro l
  induction l with
  | nil => intro _; simp
  | cons f fs ih =>
    intro h
    rw [List.map_cons]
    refine List.Forall₂.cons ?_ (ih (fun g hg => h g (List.mem_cons_of_mem f hg)))
    obtain ⟨r, hr⟩ := h f (List.mem_cons_self f fs)
    rw [rankD_eq_of_some hr]
    exact hr

/-- In the more-than-three-factor branch, the code's cyclic fold computes
exactly the spec's position-filtered sums. -/
lemma coordOf_big_eq_spec {L n : Nat} (h2 : 2 ≤ n) (hn : n ≤ L)
    (hlen : 3 < (get_prime_factors n (get_primesN L)).length) :
    coordOf (get_primesN L) n =
      specFoldCoord ((get_prime_factors n (get_primesN L)).map
        (fun f => rankD (get_primesN L) f 1)) := by
  have hmem : ∀ q ∈ get_prime_factors n (get_primesN L), q ∈ get_primesN L :=
    fun q hq => mem_factors h2 hn hq
  cases hsh : get_prime_factors n (get_primesN L) with
  | nil => rw [hsh] at hlen; simp at hlen
  | cons a tl =>
    cases tl with
    | nil => rw [hsh] at hlen; simp at hlen
    | cons b tl2 =>
      cases tl2 with
      | nil => rw [hsh] at hlen; simp at hlen
      | cons c tl3 =>
        cases tl3 with
        | nil => rw [hsh] at hlen; simp at hlen
        | cons d rest =>
          rw [hsh] at hmem
          obtain ⟨ra, hra, _⟩ := prime_to_index_some_of_mem (hmem a (by simp))
          obtain ⟨rb, hrb, _⟩ := prime_to_index_some_of_mem (hmem b (by simp))
          obtain ⟨rc, hrc, _⟩ := prime_to_index_some_of_mem (hmem c (by simp))
          have hco : coordOf (get_primesN L) n = foldAxes (get_primesN L) 3 (d :: rest)
              (rankD (get_primesN L) a 0, rankD (get_primesN L) b 0,
               rankD (get_primesN L) c 0) := by
            unfold coordOf
            rw [if_neg (by omega), hsh, coordAndType_big]
            rfl
          rw [hco, foldAxes_eq_axisAcc]
          unfold specFoldCoord
          rw [specAxisSum_big (get_primesN L) a b c (d :: rest) 0,
            specAxisSum_big (get_primesN L) a b c (d :: rest) 1,
            specAxisSum_big (get_primesN L) a b c (d :: rest) 2]
          simp only [List.map_cons, List.getD_cons_zero, List.getD_cons_succ]
          rw [rankD_eq_of_some hra, rankD_eq_of_some hrb, rankD_eq_of_some hrc,
            rankD_eq_of_some hra, rankD_eq_of_some hrb, rankD_eq_of_some hrc]

/-! ## Indexing into the generated lists -/

lemma flat_getElem {α : Type} (f : Nat → List α) : ∀ (l : List Nat) (i j : Nat),
    (∀ a ∈ l, (f a).length = 10) → j < 10 → i < l.length →
    (l.flatMap f)[10 * i + j]? = (f (l.getD i 0))[j]? := by
  intro l
  induction l with
  | nil => intro i j _ _ h; simp at h
  | cons a as ih =>
    intro i j hf hj hi
    rw [List.flatMap_cons, List.getElem?_append]
    cases i with
    | zero =>
      rw [if_pos (by rw [hf a (List.mem_cons_self a as)]; omega)]
      have h0 : 10 * 0 + j = j := by omega
      rw [h0]
      rfl
    | succ i' =>
      rw [if_neg (by rw [hf a (List.mem_cons_self a as)]; omega)]
      have harith : 10 * (i' + 1) + j - (f a).length = 10 * i' + j := by
        rw [hf a (List.mem_cons_self a as)]; omega
      rw [harith, ih i' j (fun b hb => hf b (List.mem_cons_of_mem a hb)) hj
        (by simpa using hi)]
      rfl

lemma range'_getD {s len m : Nat} (h : m < len) :
    (List.range' s len).getD m 0 = s + m := by
  rw [List.getD_eq_getElem?_getD, List.getElem?_range' s 1 h]
  simp

lemma tagsUpTo_getElem {L n j : Nat} (h2 : 2 ≤ n) (hn : n ≤ L) (hj : j < 10) :
    (tagsUpTo L L)[10 * (n - 2) + j + 1]? = (blockTags (get_primesN L) n)[j]? := by
  unfold tagsUpTo
  rw [List.getElem?_cons_succ,
    flat_getElem _ _ (n - 2) j (fun a _ => length_blockTags _ a) hj
      (by rw [List.length_range']; omega)]
  have : (List.range' 2 (L - 1)).getD (n - 2) 0 = n := by
    rw [range'_getD (show n - 2 < L - 1 by omega)]
    omega
  rw [this]

lemma pathUpTo_getElem {L n j : Nat} (h2 : 2 ≤ n) (hn : n ≤ L) (hj : j < 10) :
    (pathUpTo L L)[10 * (n - 2) + j + 1]? = (blockPoints (get_primesN L) n)[j]? := by
  unfold pathUpTo
  rw [List.getElem?_cons_succ,
    flat_getElem _ _ (n - 2) j (fun a _ => length_blockPoints _ a) hj
      (by rw [List.length_range']; omega)]
  have : (List.range' 2 (L - 1)).getD (n - 2) 0 = n := by
    rw [range'_getD (show n - 2 < L - 1 by omega)]
    omega
  rw [this]

lemma blockTags_getElem_lt {ps : List Nat} {n j : Nat} (hj : j < 9) :
    (blockTags ps n)[j]? = some (mergeTag (typeOf ps n) (typeOf ps (n - 1))) := by
  unfold blockTags
  rw [List.getElem?_append, if_pos (by rw [List.length_replicate]; omega),
    List.getElem?_replicate, if_pos hj]

lemma blockTags_getElem_nine (ps : List Nat) (n : Nat) :
    (blockTags ps n)[9]? = some (typeOf ps n) := by
  unfold blockTags
  rw [List.getElem?_append, if_neg (by rw [List.length_replicate]; omega),
    List.length_replicate]
  norm_num

lemma lerp_boundary (a b : Nat × Nat × Nat) :
    lerp a b (((10 : Nat) : ℚ) / ((10 : Nat) : ℚ)) =
      ((b.1 : ℚ), (b.2.1 : ℚ), (b.2.2 : ℚ)) := by
  unfold lerp
  norm_num

lemma blockPoints_getElem_nine (ps : List Nat) (n : Nat) :
    (blockPoints ps n)[9]? = some (((coordOf ps n).1 : ℚ),
      ((coordOf ps n).2.1 : ℚ), ((coordOf ps n).2.2 : ℚ)) := by
  unfold blockPoints
  rw [List.getElem?_map, show (List.range' 1 10)[9]? = some 10 from rfl]
  rw [Option.map_some']
  rw [lerp_boundary]

/-- The boundary tag of every `n ∈ [1, L]` is exactly `n`'s own tag. -/
lemma tags_boundary {L n : Nat} (h1 : 1 ≤ n) (hn : n ≤ L) :
    (tagsUpTo L L).getD (10 * (n - 1)) "" = typeOf (get_primesN L) n := by
  by_cases hn1 : n = 1
  · subst hn1
    rfl
  · have h2 : 2 ≤ n := by omega
    have hidx : 10 * (n - 1) = 10 * (n - 2) + 9 + 1 := by omega
    rw [List.getD_eq_getElem?_getD, hidx, tagsUpTo_getElem h2 hn (by omega),
      blockTags_getElem_nine]
    rfl

/-- The boundary point of every `n ∈ [1, L]` is exactly `n`'s coordinate. -/
lemma path_boundary {L n : Nat} (h1 : 1 ≤ n) (hn : n ≤ L) :
    (pathUpTo L L).getD (10 * (n - 1)) (0, 0, 0) =
      (((coordOf (get_primesN L) n).1 : ℚ), ((coordOf (get_primesN L) n).2.1 : ℚ),
       ((coordOf (get_primesN L) n).2.2 : ℚ)) := by
  by_cases hn1 : n = 1
  · subst hn1
    rfl
  · have h2 : 2 ≤ n := by omega
    have hidx : 10 * (n - 1) = 10 * (n - 2) + 9 + 1 := by omega
    rw [List.getD_eq_getElem?_getD, hidx, pathUpTo_getElem h2 hn (by omega),
      blockPoints_getElem_nine]
    rfl

/-- Every intermediate tag of `n`'s block is the merge of `n`'s tag with the
tag of `n − 1`'s boundary point. -/
lemma tags_intermediate {L n j : Nat} (h2 : 2 ≤ n) (hn : n ≤ L)
    (hj1 : 1 ≤ j) (hj : j ≤ 9) :
    (tagsUpTo L L).getD (10 * (n - 2) + j) "" =
      mergeTag (typeOf (get_primesN L) n) (typeOf (get_primesN L) (n - 1)) := by
  have hidx : 10 * (n - 2) + j = 10 * (n - 2) + (j - 1) + 1 := by omega
  rw [List.getD_eq_getElem?_getD, hidx, tagsUpTo_getElem h2 hn (by omega),
    blockTags_getElem_lt (by omega)]
  rfl

/-! ## Spec-side tag precedence (for C4) -/

/-- The precedence level assigned by the spec's order
`x_axis > diagonal > z_axis > other`. -/
def tagPrec (t : String) : Nat :=
  if t = "x_axis" then 4 else if t = "diagonal" then 3
  else if t = "z_axis" then 2 else if t = "other" then 1 else 0

/-- Spec-side resolution of two adjacent differing tags: keep the one of
higher precedence. -/
def specResolve (a b : String) : String := if tagPrec b ≤ tagPrec a then a else b

lemma mergeTag_spec : ∀ t ∈ ["x_axis", "diagonal", "z_axis", "other"],
    ∀ p ∈ ["origin", "x_axis", "diagonal", "z_axis", "other"],
      mergeTag t p = if p = t then t else specResolve t p := by
  decide

lemma mergeTag_spec_self : ∀ t ∈ ["x_axis", "diagonal", "z_axis", "other"],
    ∀ p ∈ ["origin", "x_axis", "diagonal", "z_axis", "other"],
      mergeTag t p = if mergeTag t p = t then t
        else specResolve t (mergeTag t p) := by
  decide

lemma mergeTag_mem_four (t p : String) :
    mergeTag t p = "x_axis" ∨ mergeTag t p = "diagonal" ∨
    mergeTag t p = "z_axis" ∨ mergeTag t p = "other" := by
  unfold mergeTag
  split_ifs <;> simp

end PathGen

/-! ## Exporter lemmas -/

namespace Export

/-- Every edge the exporter writes joins numerically consecutive vertex
indices. -/
lemma edgesOf_consec : ∀ (l : List Nat) (a b : Nat), (a, b) ∈ edgesOf l → b = a + 1 := by
  intro l
  induction l with
  | nil => intro a b h; simp [edgesOf] at h
  | cons x tl ih =>
    cases tl with
    | nil => intro a b h; simp [edgesOf] at h
    | cons y tl2 =>
      intro a b hab
      unfold edgesOf at hab
      rcases List.mem_append.mp hab with h | h
      · by_cases hxy : x + 1 = y
        · rw [if_pos hxy] at h
          rcases List.mem_singleton.mp h with heq
          cases heq
          omega
        · rw [if_neg hxy] at h
          simp at h
      · exact ih a b h

/-- Both endpoints of an emitted edge belong to the group it was emitted
for. -/
lemma edgesOf_endpoints : ∀ (l : List Nat) (a b : Nat),
    (a, b) ∈ edgesOf l → a ∈ l ∧ b ∈ l := by
  intro l
  induction l with
  | nil => intro a b h; simp [edgesOf] at h
  | cons x tl ih =>
    cases tl with
    | nil => intro a b h; simp [edgesOf] at h
    | cons y tl2 =>
      intro a b hab
      unfold edgesOf at hab
      rcases List.mem_append.mp hab with h | h
      · by_cases hxy : x + 1 = y
        · rw [if_pos hxy] at h
          rcases List.mem_singleton.mp h with heq
          cases heq
          exact ⟨by simp, by simp⟩
        · rw [if_neg hxy] at h
          simp at h
      · obtain ⟨ha, hb⟩ := ih a b h
        exact ⟨List.mem_cons_of_mem x ha, List.mem_cons_of_mem x hb⟩

/-- Vertices in a group carry that group's tag (the 0-based list position is
the 1-based vertex index minus one). -/
lemma mem_groupIndices {tags : List String} {t : String} {v : Nat}
    (h : v ∈ groupIndices tags t) : ∃ i, v = i + 1 ∧ tags[i]? = some t := by
  unfold groupIndices at h
  obtain ⟨p, hp, hv⟩ := List.mem_map.mp h
  obtain ⟨hpmem, hpt⟩ := List.mem_filter.mp hp
  refine ⟨p.1, hv.symm, ?_⟩
  have hg := List.mem_enum_iff_getElem?.mp hpmem
  rw [hg]
  have : p.2 = t := by simpa using hpt
  rw [this]

lemma length_filter_enumFrom (t : String) : ∀ (l : List String) (k : Nat),
    ((List.enumFrom k l).filter (fun p => decide (p.2 = t))).length =
      (l.filter (fun s => decide (s = t))).length := by
  intro l
  induction l with
  | nil => intro k; rfl
  | cons s rest ih =>
    intro k
    rw [List.enumFrom_cons, List.filter_cons, List.filter_cons]
    by_cases hst : s = t
    · rw [if_pos (by simpa using hst), if_pos (by simpa using hst)]
      simp only [List.length_cons]
      rw [ih (k + 1)]
    · rw [if_neg (by simpa using hst), if_neg (by simpa using hst)]
      exact ih (k + 1)

lemma length_groupIndices (tags : List String) (t : String) :
    (groupIndices tags t).length = (tags.filter (fun s => decide (s = t))).length := by
  unfold groupIndices
  rw [List.length_map]
  exact length_filter_enumFrom t tags 0

lemma length_groupIndices_cons (s : String) (rest : List String) (t : String) :
    (groupIndices (s :: rest) t).length =
      (if s = t then 1 else 0) + (groupIndices rest t).length := by
  rw [length_groupIndices, length_groupIndices, List.filter_cons]
  by_cases hst : s = t
  · rw [if_pos (by simpa using hst), if_pos hst]
    simp [List.length_cons]
    omega
  · rw [if_neg (by simpa using hst), if_neg hst]
    omega

/-- The five fixed groups cover a tag stream drawn from the five keys:
their sizes add up to the whole stream. -/
lemma five_group_cover : ∀ (tags : List String),
    (∀ s ∈ tags, s ∈ tagKeys) →
    (tagKeys.map (fun t => (groupIndices tags t).length)).sum = tags.length := by
  intro tags
  induction tags with
  | nil => intro _; rfl
  | cons s rest ih =>
    intro h
    have hs : s ∈ tagKeys := h s (List.mem_cons_self s rest)
    have hrest := ih (fun q hq => h q (List.mem_cons_of_mem s hq))
    simp only [tagKeys, List.map_cons, List.map_nil, List.sum_cons,
      List.sum_nil] at hrest ⊢
    rw [length_groupIndices_cons s rest "x_axis",
      length_groupIndices_cons s rest "diagonal",
      length_groupIndices_cons s rest "z_axis",
      length_groupIndices_cons s rest "other",
      length_groupIndices_cons s rest "origin", List.length_cons]
    have hs5 : s = "x_axis" ∨ s = "diagonal" ∨ s = "z_axis" ∨ s = "other" ∨
        s = "origin" := by simpa [tagKeys] using hs
    rcases hs5 with rfl | rfl | rfl | rfl | rfl
    · rw [if_pos rfl, if_neg (by decide), if_neg (by decide), if_neg (by decide),
        if_neg (by decide)]
      omega
    · rw [if_neg (by decide), if_pos rfl, if_neg (by decide), if_neg (by decide),
        if_neg (by decide)]
      omega
    · rw [if_neg (by decide), if_neg (by decide), if_pos rfl, if_neg (by decide),
        if_neg (by decide)]
      omega
    · rw [if_neg (by decide), if_neg (by decide), if_neg (by decide), if_pos rfl,
        if_neg (by decide)]
      omega
    · rw [if_neg (by decide), if_neg (by decide), if_neg (by decide),
        if_neg (by decide), if_pos rfl]
      omega

/-- Every tag the path builder emits is one of the exporter's five keys. -/
lemma tagsUpTo_mem_keys {L : Nat} :
    ∀ s ∈ PathGen.tagsUpTo L L, s ∈ tagKeys := by
  intro s hs
  unfold PathGen.tagsUpTo at hs
  rcases List.mem_cons.mp hs with rfl | hs
  · simp [tagKeys]
  · obtain ⟨n, hn, hsn⟩ := List.mem_flatMap.mp hs
    obtain ⟨hn2, hnlt⟩ := List.mem_range'_1.mp hn
    unfold PathGen.blockTags at hsn
    rcases List.mem_append.mp hsn with h | h
    · have heq := List.eq_of_mem_replicate h
      subst heq
      rcases PathGen.mergeTag_mem_four (PathGen.typeOf (get_primesN L) n)
        (PathGen.typeOf (get_primesN L) (n - 1)) with h4 | h4 | h4 | h4 <;>
        simp [h4, tagKeys]
    · have heq := List.mem_singleton.mp h
      subst heq
      have hnle : n ≤ L := by omega
      rcases PathGen.typeOf_mem_five (show 1 ≤ n by omega) hnle with
        h5 | h5 | h5 | h5 | h5 <;> simp [h5, tagKeys]

end Export

/-! ## Shared glue for the claim theorems -/

lemma result_eq {L : Nat} (hL : 1 ≤ L) {path : List PathGen.Point}
    {idx : List (Nat × Nat)} {tags : List String}
    (hr : PathGen.generate_full_pathN L = Except.ok (path, idx, tags)) :
    path = PathGen.pathUpTo L L ∧ idx = PathGen.endIdxUpTo L ∧
      tags = PathGen.tagsUpTo L L := by
  have hEq := (PathGen.generate_full_pathN_eq L hL).symm.trans hr
  have h := Except.ok.inj hEq
  have h23 := congrArg Prod.snd h
  exact ⟨(congrArg Prod.fst h).symm, (congrArg Prod.fst h23).symm,
    (congrArg Prod.snd h23).symm⟩

lemma lookup_mapPairs (f : Nat → Nat) : ∀ (l : List Nat) (n : Nat),
    List.lookup n (l.map (fun m => (m, f m))) = if n ∈ l then some (f n) else none := by
  intro l
  induction l with
  | nil => intro n; rfl
  | cons m tl ih =>
    intro n
    rw [List.map_cons]
    by_cases hnm : n = m
    · subst hnm
      simp [List.lookup]
    · have hne : (n == m) = false := by simp [hnm]
      simp only [List.lookup, hne, ih n]
      by_cases hmem : n ∈ tl
      · rw [if_pos hmem, if_pos (List.mem_cons_of_mem m hmem)]
      · rw [if_neg hmem, if_neg (by simp [List.mem_cons, hnm, hmem])]

lemma lookup_endIdx {k n : Nat} (h1 : 1 ≤ n) (hn : n ≤ k) :
    List.lookup n (PathGen.endIdxUpTo k) = some (10 * (n - 1)) := by
  unfold PathGen.endIdxUpTo
  rw [lookup_mapPairs (fun m => 10 * (m - 1)) (List.range' 1 k) n,
    if_pos (List.mem_range'_1.mpr ⟨h1, by omega⟩)]

lemma int_wrapper {L : Int} (hL : 2 ≤ L) :
    PathGen.generate_full_path L = PathGen.generate_full_pathN L.toNat := by
  have hgp : get_primes L = Except.ok (get_primesN L.toNat) := by
    unfold get_primes
    rw [if_neg (by omega), if_neg (by omega)]
  unfold PathGen.generate_full_path
  rw [hgp]

/-! ## The claims -/

/-- Claim C1: for every limit L ≥ 2, the path built by `generate_full_path(L)`
with the interpolation step count K = 10 has exactly 1 + (L−1)·K points,
beginning with the point (0,0,0) for n = 1 at index 0 (and the segment-end
table records index 0 for n = 1). -/
theorem C1_path_length (L : Int) (hL : 2 ≤ L) :
    ∃ (path : List PathGen.Point) (idx : List (Nat × Nat)) (tags : List String),
      PathGen.generate_full_path L = Except.ok (path, idx, tags) ∧
      (path.length : Int) = 1 + (L - 1) * 10 ∧
      path[0]? = some (0, 0, 0) ∧
      List.lookup 1 idx = some 0 := by
  have hNat : 1 ≤ L.toNat := by omega
  rw [int_wrapper hL, PathGen.generate_full_pathN_eq L.toNat hNat]
  refine ⟨_, _, _, rfl, ?_, ?_, ?_⟩
  · rw [PathGen.length_pathUpTo]
    omega
  · unfold PathGen.pathUpTo
    rw [List.getElem?_cons_zero]
  · have := lookup_endIdx (k := L.toNat) (n := 1) le_rfl hNat
    simpa using this

theorem C1_path_length_witness :
    ∃ (path : List PathGen.Point) (idx : List (Nat × Nat)) (tags : List String),
      PathGen.generate_full_path 3 = Except.ok (path, idx, tags) ∧
      (path.length : Int) = 1 + ((3 : Int) - 1) * 10 ∧
      path[0]? = some (0, 0, 0) ∧
      List.lookup 1 idx = some 0 :=
  C1_path_length 3 (by decide)

/-- Claim C2: every prime p ≤ L is mapped by the factorizer, coordinate
mapper and classifier inside `generate_full_path` to tag `x_axis` at
coordinate (rank(p), 0, 0), where rank is the 1-based position of p in the
ascending prime list produced by `get_primes(L)`. -/
theorem C2_primes_on_x_axis (L p : Nat) (hL : 2 ≤ L) (hp : Nat.Prime p)
    (hpL : p ≤ L) :
    List.Pairwise (· < ·) (get_primesN L) ∧
    ∃ i, PathGen.idxOf? p (get_primesN L) = some i ∧
      PathGen.coordAndType (get_primesN L) (get_prime_factors p (get_primesN L)) =
        Except.ok ((i + 1, 0, 0), "x_axis") ∧
      PathGen.coordOf (get_primesN L) p = (i + 1, 0, 0) ∧
      PathGen.typeOf (get_primesN L) p = "x_axis" := by
  refine ⟨sorted_get_primesN L, ?_⟩
  have hmem : p ∈ get_primesN L := mem_get_primesN.mpr ⟨hp, hpL⟩
  obtain ⟨i, hi⟩ := idxOf?_isSome_of_mem _ p hmem
  have hpti : PathGen.prime_to_index (get_primesN L) p = some (i + 1) := by
    simp [PathGen.prime_to_index, hi]
  have hfac := factors_prime hp hpL
  have hct : PathGen.coordAndType (get_primesN L)
      (get_prime_factors p (get_primesN L)) =
      Except.ok ((i + 1, 0, 0), "x_axis") := by
    rw [hfac]
    exact PathGen.coordAndType_single hpti
  have hp1 : p ≠ 1 := by have := hp.two_le; omega
  refine ⟨i, hi, hct, ?_, ?_⟩
  · unfold PathGen.coordOf
    rw [if_neg hp1, hct]
    rfl
  · unfold PathGen.typeOf
    rw [if_neg hp1, hct]
    rfl

theorem C2_primes_on_x_axis_witness :
    List.Pairwise (· < ·) (get_primesN 10) ∧
    ∃ i, PathGen.idxOf? 5 (get_primesN 10) = some i ∧
      PathGen.coordAndType (get_primesN 10) (get_prime_factors 5 (get_primesN 10)) =
        Except.ok ((i + 1, 0, 0), "x_axis") ∧
      PathGen.coordOf (get_primesN 10) 5 = (i + 1, 0, 0) ∧
      PathGen.typeOf (get_primesN 10) 5 = "x_axis" :=
  C2_primes_on_x_axis 10 5 (by decide) (by decide) (by decide)

/-- Claim C8: for every limit L ≥ 2, the segment-end index mapping returned
by `generate_full_path` is strictly increasing in n over n = 1..L, and the
entry for n = L equals the path length minus 1. -/
theorem C8_segment_indices (L : Nat) (hL : 2 ≤ L) (path : List PathGen.Point)
    (idx : List (Nat × Nat)) (tags : List String)
    (hr : PathGen.generate_full_pathN L = Except.ok (path, idx, tags)) :
    (∀ n, 1 ≤ n → n < L → ∃ a b, List.lookup n idx = some a ∧
      List.lookup (n + 1) idx = some b ∧ a < b) ∧
    List.lookup L idx = some (path.length - 1) := by
  obtain ⟨hpath, hidx, htags⟩ := result_eq (by omega) hr
  subst hpath hidx htags
  constructor
  · intro n h1 hn
    refine ⟨10 * (n - 1), 10 * n, lookup_endIdx h1 (by omega), ?_, by omega⟩
    have := lookup_endIdx (k := L) (n := n + 1) (by omega) (by omega)
    simpa using this
  · rw [lookup_endIdx (by omega) le_rfl, PathGen.length_pathUpTo]
    congr 1
    omega

theorem C8_segment_indices_witness :
    (∀ n, 1 ≤ n → n < 3 → ∃ a b,
      List.lookup n (PathGen.endIdxUpTo 3) = some a ∧
      List.lookup (n + 1) (PathGen.endIdxUpTo 3) = some b ∧ a < b) ∧
    List.lookup 3 (PathGen.endIdxUpTo 3) = some ((PathGen.pathUpTo 3 3).length - 1) :=
  C8_segment_indices 3 (by decide) _ _ _ (PathGen.generate_full_pathN_eq 3 (by decide))

/-- Claim C3: for every n in [2, L] whose descending factor list has more
than 3 entries, the coordinate produced by `generate_full_path` equals the
seed (x,y,z) from the ranks of the first three factors plus, for each
further factor at 0-based position i ≥ 3, that factor's rank added onto
axis i mod 3 — accumulation onto the existing value, expressed as
position-filtered sums in `specFoldCoord`. -/
theorem C3_fold_coordinates (L n : Nat) (hL : 2 ≤ L) (h2 : 2 ≤ n) (hn : n ≤ L)
    (hlen : 3 < (get_prime_factors n (get_primesN L)).length) :
    ∃ ranks : List Nat,
      List.Forall₂ (fun f r => PathGen.prime_to_index (get_primesN L) f = some r)
        (get_prime_factors n (get_primesN L)) ranks ∧
      PathGen.coordOf (get_primesN L) n = PathGen.specFoldCoord ranks := by
  refine ⟨_, PathGen.forall2_rank (get_primesN L) _ ?_,
    PathGen.coordOf_big_eq_spec h2 hn hlen⟩
  intro f hf
  obtain ⟨r, hr, _⟩ := prime_to_index_some_of_mem (mem_factors h2 hn hf)
  exact ⟨r, hr⟩

theorem C3_fold_coordinates_witness :
    ∃ ranks : List Nat,
      List.Forall₂ (fun f r => PathGen.prime_to_index (get_primesN 16) f = some r)
        (get_prime_factors 16 (get_primesN 16)) ranks ∧
      PathGen.coordOf (get_primesN 16) 16 = PathGen.specFoldCoord ranks :=
  C3_fold_coordinates 16 16 (by decide) (by decide) (by decide) (by decide)

/-- Claim C9: for every limit L ≥ 2 and every n in [1, L], the boundary
coordinate (x, y, z) assigned to n by `generate_full_path` satisfies
x ≥ y ≥ z, in all factor-count branches including the cyclic fold; the
boundary path point at index 10·(n−1) carries exactly that coordinate. -/
theorem C9_coordinate_ordering (L n : Nat) (hL : 2 ≤ L) (h1 : 1 ≤ n) (hn : n ≤ L) :
    ((PathGen.coordOf (get_primesN L) n).2.1 ≤ (PathGen.coordOf (get_primesN L) n).1 ∧
     (PathGen.coordOf (get_primesN L) n).2.2 ≤ (PathGen.coordOf (get_primesN L) n).2.1) ∧
    ∀ (path : List PathGen.Point) (idx : List (Nat × Nat)) (tags : List String),
      PathGen.generate_full_pathN L = Except.ok (path, idx, tags) →
      path.getD (10 * (n - 1)) (0, 0, 0) =
        (((PathGen.coordOf (get_primesN L) n).1 : ℚ),
         ((PathGen.coordOf (get_primesN L) n).2.1 : ℚ),
         ((PathGen.coordOf (get_primesN L) n).2.2 : ℚ)) := by
  refine ⟨PathGen.coordOf_order h1 hn, ?_⟩
  intro path idx tags hr
  obtain ⟨hpath, _, _⟩ := result_eq (by omega) hr
  subst hpath
  exact PathGen.path_boundary h1 hn

theorem C9_coordinate_ordering_witness :
    ((PathGen.coordOf (get_primesN 4) 4).2.1 ≤ (PathGen.coordOf (get_primesN 4) 4).1 ∧
     (PathGen.coordOf (get_primesN 4) 4).2.2 ≤ (PathGen.coordOf (get_primesN 4) 4).2.1) ∧
    ∀ (path : List PathGen.Point) (idx : List (Nat × Nat)) (tags : List String),
      PathGen.generate_full_pathN 4 = Except.ok (path, idx, tags) →
      path.getD (10 * (4 - 1)) (0, 0, 0) =
        (((PathGen.coordOf (get_primesN 4) 4).1 : ℚ),
         ((PathGen.coordOf (get_primesN 4) 4).2.1 : ℚ),
         ((PathGen.coordOf (get_primesN 4) 4).2.2 : ℚ)) :=
  C9_coordinate_ordering 4 4 (by decide) (by decide) (by decide)

/-- Claim C4: for every n in [2, L], the boundary point of n's block carries
exactly n's own tag, and each of the K−1 interpolated points carries n's
tag except that a differing preceding tag is resolved by the fixed
precedence x_axis > diagonal > z_axis > other (`specResolve`). -/
theorem C4_tag_inheritance (L : Nat) (hL : 2 ≤ L) (path : List PathGen.Point)
    (idx : List (Nat × Nat)) (tags : List String)
    (hr : PathGen.generate_full_pathN L = Except.ok (path, idx, tags))
    (n : Nat) (h2 : 2 ≤ n) (hn : n ≤ L) :
    tags.getD (10 * (n - 1)) "" = PathGen.typeOf (get_primesN L) n ∧
    ∀ j, 1 ≤ j → j ≤ 9 →
      tags.getD (10 * (n - 2) + j) "" =
        (if tags.getD (10 * (n - 2) + j - 1) "" = PathGen.typeOf (get_primesN L) n
         then PathGen.typeOf (get_primesN L) n
         else PathGen.specResolve (PathGen.typeOf (get_primesN L) n)
           (tags.getD (10 * (n - 2) + j - 1) "")) := by
  obtain ⟨_, _, htags⟩ := result_eq (by omega) hr
  subst htags
  have ht4 : PathGen.typeOf (get_primesN L) n ∈
      ["x_axis", "diagonal", "z_axis", "other"] := by
    rcases PathGen.typeOf_mem_four h2 hn with h | h | h | h <;> simp [h]
  have hp5 : PathGen.typeOf (get_primesN L) (n - 1) ∈
      ["origin", "x_axis", "diagonal", "z_axis", "other"] := by
    rcases PathGen.typeOf_mem_five (show 1 ≤ n - 1 by omega)
      (show n - 1 ≤ L by omega) with h | h | h | h | h <;> simp [h]
  refine ⟨PathGen.tags_boundary (by omega) hn, ?_⟩
  intro j hj1 hj9
  rw [PathGen.tags_intermediate h2 hn hj1 hj9]
  by_cases hj : j = 1
  · subst hj
    have hprev : (PathGen.tagsUpTo L L).getD (10 * (n - 2) + 1 - 1) "" =
        PathGen.typeOf (get_primesN L) (n - 1) := by
      have harith : 10 * (n - 2) + 1 - 1 = 10 * ((n - 1) - 1) := by omega
      rw [harith]
      exact PathGen.tags_boundary (by omega) (by omega)
    rw [hprev]
    exact PathGen.mergeTag_spec _ ht4 _ hp5
  · have hprev : (PathGen.tagsUpTo L L).getD (10 * (n - 2) + j - 1) "" =
        PathGen.mergeTag (PathGen.typeOf (get_primesN L) n)
          (PathGen.typeOf (get_primesN L) (n - 1)) := by
      have harith : 10 * (n - 2) + j - 1 = 10 * (n - 2) + (j - 1) := by omega
      rw [harith]
      exact PathGen.tags_intermediate h2 hn (by omega) (by omega)
    rw [hprev]
    exact PathGen.mergeTag_spec_self _ ht4 _ hp5

theorem C4_tag_inheritance_witness :
    (PathGen.tagsUpTo 4 4).getD (10 * (4 - 1)) "" = PathGen.typeOf (get_primesN 4) 4 ∧
    ∀ j, 1 ≤ j → j ≤ 9 →
      (PathGen.tagsUpTo 4 4).getD (10 * (4 - 2) + j) "" =
        (if (PathGen.tagsUpTo 4 4).getD (10 * (4 - 2) + j - 1) "" =
            PathGen.typeOf (get_primesN 4) 4
         then PathGen.typeOf (get_primesN 4) 4
         else PathGen.specResolve (PathGen.typeOf (get_primesN 4) 4)
           ((PathGen.tagsUpTo 4 4).getD (10 * (4 - 2) + j - 1) "")) :=
  C4_tag_inheritance 4 (by decide) _ _ _ (PathGen.generate_full_pathN_eq 4 (by decide))
    4 (by decide) (by decide)

/-- Claim C10: for every limit L ≥ 2, the point list and the tag list
returned by `generate_full_path` have equal length, every tag is one of the
exporter's five keys, and the exporter's fixed five-group partition covers
every path point (the group sizes add up to the path length). -/
theorem C10_tag_partition (L : Nat) (hL : 2 ≤ L) (path : List PathGen.Point)
    (idx : List (Nat × Nat)) (tags : List String)
    (hr : PathGen.generate_full_pathN L = Except.ok (path, idx, tags)) :
    tags.length = path.length ∧
    (∀ s ∈ tags, s ∈ Export.tagKeys) ∧
    (Export.tagKeys.map (fun t => (Export.groupIndices tags t).length)).sum =
      path.length := by
  obtain ⟨hpath, _, htags⟩ := result_eq (by omega) hr
  subst hpath htags
  have hmem := Export.tagsUpTo_mem_keys (L := L)
  refine ⟨?_, hmem, ?_⟩
  · rw [PathGen.length_tagsUpTo, PathGen.length_pathUpTo]
  · rw [Export.five_group_cover _ hmem, PathGen.length_tagsUpTo,
      PathGen.length_pathUpTo]

theorem C10_tag_partition_witness :
    (PathGen.tagsUpTo 3 3).length = (PathGen.pathUpTo 3 3).length ∧
    (∀ s ∈ PathGen.tagsUpTo 3 3, s ∈ Export.tagKeys) ∧
    (Export.tagKeys.map
      (fun t => (Export.groupIndices (PathGen.tagsUpTo 3 3) t).length)).sum =
      (PathGen.pathUpTo 3 3).length :=
  C10_tag_partition 3 (by decide) _ _ _ (PathGen.generate_full_pathN_eq 3 (by decide))

/-- Claim C7: for every tag sequence, the exporter emits a polyline edge
between two vertices of the same tag group only if their vertex indices are
numerically consecutive; in particular, for the tag stream
[x_axis, x_axis, other, x_axis] the x_axis group is [1, 2, 4] (1-based) and
its only edge is 1–2 (path indices 0–1), never 2–4 (path indices 1–3). -/
theorem C7_consecutive_edges :
    (∀ (tags : List String) (t : String) (a b : Nat),
      (a, b) ∈ Export.edgesOf (Export.groupIndices tags t) →
        b = a + 1 ∧ (∃ i, a = i + 1 ∧ tags[i]? = some t) ∧
          (∃ i, b = i + 1 ∧ tags[i]? = some t)) ∧
    Export.groupIndices ["x_axis", "x_axis", "other", "x_axis"] "x_axis" = [1, 2, 4] ∧
    Export.edgesOf [1, 2, 4] = [(1, 2)] := by
  refine ⟨?_, by decide, by decide⟩
  intro tags t a b hab
  obtain ⟨ha, hb⟩ := Export.edgesOf_endpoints _ a b hab
  exact ⟨Export.edgesOf_consec _ a b hab, Export.mem_groupIndices ha,
    Export.mem_groupIndices hb⟩

theorem C7_consecutive_edges_witness :
    (2 : Nat) = 1 + 1 ∧ (∃ i, (1 : Nat) = i + 1 ∧
      ["x_axis", "x_axis", "other", "x_axis"][i]? = some "x_axis") ∧
    (∃ i, (2 : Nat) = i + 1 ∧
      ["x_axis", "x_axis", "other", "x_axis"][i]? = some "x_axis") :=
  C7_consecutive_edges.1 ["x_axis", "x_axis", "other", "x_axis"] "x_axis" 1 2 (by decide)

/-- Claim C5, counterexample: the claim says every limit L < 2 yields an
empty result with no error, but at L = 0 the sieve's write
`is_prime[1] = False` raises IndexError, which `generate_full_path`
propagates. -/
theorem C5_counterexample :
    PathGen.generate_full_path 0 = Except.error "IndexError" ∧
    get_primes 0 = Except.error "IndexError" ∧
    PathGen.generate_full_path (-1) = Except.error "IndexError" :=
  ⟨rfl, rfl, rfl⟩

/-- Claim C5, amended: among limits L < 2 only L = 1 returns an empty prime
list (and the one-point origin path) without error; every L ≤ 0 raises
IndexError from the sieve's initial writes, and `generate_full_path`
propagates it instead of returning an empty result. -/
theorem C5_amended (L : Int) (hL : L ≤ 0) :
    PathGen.generate_full_path L = Except.error "IndexError" ∧
    get_primes L = Except.error "IndexError" ∧
    get_primes 1 = Except.ok [] ∧
    PathGen.generate_full_path 1 =
      Except.ok ([((0 : ℚ), (0 : ℚ), (0 : ℚ))], [(1, 0)], ["origin"]) := by
  have hgp : get_primes L = Except.error "IndexError" := by
    unfold get_primes
    by_cases h1 : L + 1 < 1
    · rw [if_pos h1]
    · rw [if_neg h1, if_pos (by omega)]
  refine ⟨?_, hgp, rfl, rfl⟩
  unfold PathGen.generate_full_path
  rw [hgp]

theorem C5_amended_witness :
    PathGen.generate_full_path (-7) = Except.error "IndexError" ∧
    get_primes (-7) = Except.error "IndexError" ∧
    get_primes 1 = Except.ok [] ∧
    PathGen.generate_full_path 1 =
      Except.ok ([((0 : ℚ), (0 : ℚ), (0 : ℚ))], [(1, 0)], ["origin"]) :=
  C5_amended (-7) (by decide)

/-- Claim C6, counterexample: the claim says an unresolvable residual factor
always fails fast and is never silently given a default rank.  But for the
factor list of 24 over the table from `get_primes(2)` — residual factor 3,
absent from the table — the more-than-three-factor branch succeeds,
silently substituting the default rank 0 for 3 (coordinate (1,1,1)),
raising no error. -/
theorem C6_counterexample :
    get_prime_factors 24 (get_primesN 2) = [3, 2, 2, 2] ∧
    PathGen.prime_to_index (get_primesN 2) 3 = none ∧
    PathGen.coordAndType (get_primesN 2) (get_prime_factors 24 (get_primesN 2)) =
      Except.ok ((1, 1, 1), "other") :=
  ⟨by decide, by decide, rfl⟩

/-- Claim C6, amended: when the leading factor has no rank in the table, the
one-, two- and three-factor branches fail fast with a KeyError naming that
factor; the more-than-three-factor branch instead substitutes default ranks
(0 for the first three positions, 1 for later ones) and returns a
coordinate without any error. -/
theorem C6_amended (ps : List Nat) (q d : Nat) (rest : List Nat)
    (hq : PathGen.prime_to_index ps q = none) :
    PathGen.coordAndType ps [q] = Except.error ("KeyError: " ++ toString q) ∧
    PathGen.coordAndType ps [q, d] = Except.error ("KeyError: " ++ toString q) ∧
    PathGen.coordAndType ps [q, d, d] = Except.error ("KeyError: " ++ toString q) ∧
    ∃ v, PathGen.coordAndType ps (q :: d :: d :: d :: rest) = Except.ok v := by
  have hlk : PathGen.lookupRank ps q = Except.error ("KeyError: " ++ toString q) := by
    simp [PathGen.lookupRank, hq]
  refine ⟨?_, ?_, ?_, ⟨_, PathGen.coordAndType_big ps q d d d rest⟩⟩
  · show (PathGen.lookupRank ps q >>= fun r => pure ((r, 0, 0), "x_axis")) = _
    rw [hlk]
    rfl
  · show (PathGen.lookupRank ps q >>= fun x => PathGen.lookupRank ps d >>= fun y =>
      if q = d then pure ((x, y, 0), "diagonal") else pure ((x, y, 0), "other")) = _
    rw [hlk]
    rfl
  · show (PathGen.lookupRank ps q >>= fun x => PathGen.lookupRank ps d >>= fun y =>
      PathGen.lookupRank ps d >>= fun z =>
      if q = d ∧ d = d then pure ((x, y, z), "z_axis")
      else pure ((x, y, z), "other")) = _
    rw [hlk]
    rfl

theorem C6_amended_witness :
    PathGen.coordAndType [] [3] = Except.error ("KeyError: " ++ toString 3) ∧
    PathGen.coordAndType [] [3, 2] = Except.error ("KeyError: " ++ toString 3) ∧
    PathGen.coordAndType [] [3, 2, 2] = Except.error ("KeyError: " ++ toString 3) ∧
    ∃ v, PathGen.coordAndType [] [3, 2, 2, 2] = Except.ok v :=
  C6_amended [] 3 2 [] rfl

end PrimeBox

/-! ## Consistency checks against concrete runs

These evaluate the embedded functions on small inputs, including the spec's
worked example for L = 10 (ranks 2→1, 3→2, 5→3, 7→4). -/

example : PrimeBox.get_primesN 10 = [2, 3, 5, 7] := by decide
example : PrimeBox.get_primesN 30 = [2, 3, 5, 7, 11, 13, 17, 19, 23, 29] := by decide
example : PrimeBox.get_primesN 1 = [] := by decide
example : PrimeBox.get_primes 1 = Except.ok [] := rfl
example : PrimeBox.get_prime_factors 24 (PrimeBox.get_primesN 24) = [3, 2, 2, 2] := by
  decide
example : PrimeBox.get_prime_factors 7 (PrimeBox.get_primesN 10) = [7] := by decide
example :
    (PrimeBox.PathGen.generate_full_pathN 3).toOption.map
      (fun r => (r.1.length, r.2.1, r.2.2)) =
    some (21, [(1, 0), (2, 10), (3, 20)],
      ["origin", "x_axis", "x_axis", "x_axis", "x_axis", "x_axis", "x_axis",
       "x_axis", "x_axis", "x_axis", "x_axis", "x_axis", "x_axis", "x_axis",
       "x_axis", "x_axis", "x_axis", "x_axis", "x_axis", "x_axis", "x_axis"]) := by
  decide
example :
    (List.range' 2 9).map (fun n => PrimeBox.PathGen.coordOf (PrimeBox.get_primesN 10) n) =
      [(1, 0, 0), (2, 0, 0), (1, 1, 0), (3, 0, 0), (2, 1, 0), (4, 0, 0),
       (1, 1, 1), (2, 2, 0), (3, 1, 0)] := by decide
example :
    (List.range' 2 9).map (fun n => PrimeBox.PathGen.typeOf (PrimeBox.get_primesN 10) n) =
      ["x_axis", "x_axis", "diagonal", "x_axis", "other", "x_axis",
       "z_axis", "diagonal", "other"] := by decide
